import Mathlib

/-!
Verification of the diff-generation and selective-merge engine of the
kubernetes-config-sync repository.

The definitions below are a shallow embedding of the TypeScript source:
the backend comparator (`compareResources` in the backend entry point) and
the frontend diff/merge component (`ResourceComparator.tsx`).  JavaScript
strings are modelled as Lean `String`; JavaScript objects holding
string-to-string data maps are modelled as ordered association lists
`List (String × String)` (insertion order is significant, exactly as for
JavaScript object keys).  Helper functions named `js...` model the
corresponding JavaScript string primitives.
-/

namespace ConfigSync

/-- Model of the JavaScript whitespace test used by `String.prototype.trim`
(restricted to the ASCII whitespace characters, which are the only ones the
data of this application can contain). -/
def jsWs (c : Char) : Bool :=
  c = ' ' || c = '\t' || c = '\n' || c = '\r' || c = '\x0b' || c = '\x0c'

/-- Trim on character lists: drop leading and trailing whitespace. -/
def trimAux (cs : List Char) : List Char :=
  ((cs.dropWhile jsWs).reverse.dropWhile jsWs).reverse

/-- Model of JavaScript `s.trim()`. -/
def jsTrim (s : String) : String :=
  String.mk (trimAux s.data)

/-- Model of JavaScript `s.startsWith(p)`. -/
def jsStartsWith (s p : String) : Bool :=
  p.data.isPrefixOf s.data

/-- Model of JavaScript `s.substring(1)`. -/
def strDrop1 (s : String) : String :=
  String.mk (s.data.drop 1)

/-- Split a character list at newline characters (semantics of
JavaScript `s.split('\n')`). -/
def splitNlAux : List Char → List (List Char)
  | [] => [[]]
  | c :: cs =>
    if c = '\n' then [] :: splitNlAux cs
    else
      match splitNlAux cs with
      | [] => [[c]]
      | l :: ls => (c :: l) :: ls

/-- Join character lists with newline separators. -/
def joinNlAux : List (List Char) → List Char
  | [] => []
  | [l] => l
  | l :: ls => l ++ '\n' :: joinNlAux ls

/-- Model of JavaScript `s.split('\n')`. -/
def splitNl (s : String) : List String :=
  (splitNlAux s.data).map String.mk

/-- Join a list of lines with newline separators. -/
def joinNl (ls : List String) : String :=
  String.mk (joinNlAux (ls.map String.data))

/-- Decimal digit character. -/
def decDigit : Nat → Char
  | 0 => '0' | 1 => '1' | 2 => '2' | 3 => '3' | 4 => '4'
  | 5 => '5' | 6 => '6' | 7 => '7' | 8 => '8' | 9 => '9'
  | _ => '*'

/-- Decimal rendering of a natural number on character lists, with fuel
to keep the recursion structural. -/
def decChars : Nat → Nat → List Char
  | 0, _ => []
  | fuel + 1, n =>
    if n < 10 then [decDigit n]
    else decChars fuel (n / 10) ++ [decDigit (n % 10)]

/-- Model of the JavaScript number-to-string conversion used by template
literals, for natural numbers. -/
def natDec (n : Nat) : String :=
  String.mk (decChars (n + 1) n)

/-- Numeric value of a decimal digit character. -/
def decVal (c : Char) : Nat :=
  match c with
  | '0' => 0 | '1' => 1 | '2' => 2 | '3' => 3 | '4' => 4
  | '5' => 5 | '6' => 6 | '7' => 7 | '8' => 8 | '9' => 9
  | _ => 0

/-- Model of JavaScript `parseInt` on a string of decimal digits. -/
def decParse (cs : List Char) : Nat :=
  cs.foldl (fun a c => a * 10 + decVal c) 0

/-- Hexadecimal digit character (for JSON control-character escapes). -/
def hexDigit (d : Nat) : Char :=
  if d < 10 then decDigit d
  else if d = 10 then 'a' else if d = 11 then 'b' else if d = 12 then 'c'
  else if d = 13 then 'd' else if d = 14 then 'e' else 'f'

/-- JSON escaping of a single character, as performed by
`JSON.stringify` on the characters of a string value. -/
def jsonEscapeChar (c : Char) : List Char :=
  if c = '"' then ['\\', '"']
  else if c = '\\' then ['\\', '\\']
  else if c = '\n' then ['\\', 'n']
  else if c = '\r' then ['\\', 'r']
  else if c = '\t' then ['\\', 't']
  else if c = '\x08' then ['\\', 'b']
  else if c = '\x0c' then ['\\', 'f']
  else if c.toNat < 32 then
    ['\\', 'u', '0', '0', hexDigit (c.toNat / 16), hexDigit (c.toNat % 16)]
  else [c]

/-- JSON escaping of a whole string, on character lists. -/
def jsonEscapeL (s : String) : List Char :=
  (s.data.map jsonEscapeChar).flatten

/-- One line of the 2-space-indented JSON object rendering:
two spaces, the quoted key, a colon, the quoted value, and a trailing
comma on every entry except the last. -/
def jsonEntryLine (isLast : Bool) (kv : String × String) : String :=
  String.mk (' ' :: ' ' :: '"' :: (jsonEscapeL kv.1 ++ '"' :: ':' :: ' ' :: '"' ::
    (jsonEscapeL kv.2 ++ '"' :: (if isLast then [] else [',']))))

/-- The entry lines of a JSON object rendering, in insertion order. -/
def jsonEntryLines : List (String × String) → List String
  | [] => []
  | [kv] => [jsonEntryLine true kv]
  | kv :: rest => jsonEntryLine false kv :: jsonEntryLines rest

/-- Lines of `JSON.stringify(m, null, 2)` for a flat string-to-string
object `m` (insertion-ordered association list). -/
def jsonStringifyLines (m : List (String × String)) : List String :=
  match m with
  | [] => ["{}"]
  | _ => "\x7b" :: (jsonEntryLines m ++ ["\x7d"])

/-- Model of `JSON.stringify(m, null, 2)` for a flat string-to-string
object: the serialization walks the keys in insertion order. -/
def jsonStringify (m : List (String × String)) : String :=
  joinNl (jsonStringifyLines m)

/-- First-match lookup in an association list (JavaScript property read
on an object whose keys are unique). -/
def alookup {β : Type} : List (String × β) → String → Option β
  | [], _ => none
  | (k', v) :: rest, k => if k' = k then some v else alookup rest k

/-- Model of the JavaScript property write `obj[k] = v` (and of
`Map.prototype.set`): an existing key keeps its position, a new key is
appended at the end. -/
def setEntry {β : Type} : List (String × β) → String → β → List (String × β)
  | [], k, v => [(k, v)]
  | (k', v') :: rest, k, v =>
    if k' = k then (k, v) :: rest else (k', v') :: setEntry rest k v

/-- Order-preserving deduplication keeping first occurrences (semantics
of iterating a JavaScript `Set` built by insertion). -/
def dedupGo : List String → List String → List String
  | [], _ => []
  | x :: xs, seen => if x ∈ seen then dedupGo xs seen else x :: dedupGo xs (x :: seen)

/-- Deduplicate a list of strings, keeping the first occurrence of each. -/
def dedupStr (l : List String) : List String := dedupGo l []

/-- Model of the JavaScript object spread `{...a, ...b}`: keys of `a` in
their order with values overridden by `b` where present, followed by the
keys only in `b`, in their order. -/
def mergeSpread (a b : List (String × String)) : List (String × String) :=
  (a.map (fun kv => (kv.1, (alookup b kv.1).getD kv.2))) ++
    (b.filter (fun kv => (alookup a kv.1).isNone))

/-- Modelled from the spec: the browser base64 decoder `atob` used by the
decode transform (the decoder itself is a platform builtin, not part of the
repository).  Value of one base64 alphabet character. -/
def b64Val (c : Char) : Option Nat :=
  let n := c.toNat
  if 65 ≤ n ∧ n ≤ 90 then some (n - 65)
  else if 97 ≤ n ∧ n ≤ 122 then some (n - 97 + 26)
  else if 48 ≤ n ∧ n ≤ 57 then some (n - 48 + 52)
  else if c = '+' then some 62
  else if c = '/' then some 63
  else none

/-- Values of a list of base64 characters; fails on the first character
outside the alphabet. -/
def b64Vals : List Char → Option (List Nat)
  | [] => some []
  | c :: cs =>
    match b64Val c, b64Vals cs with
    | some v, some vs => some (v :: vs)
    | _, _ => none

/-- Drop up to two trailing padding characters. -/
def stripPadChars (cs : List Char) : List Char :=
  let cs1 := if cs.getLast? = some '=' then cs.dropLast else cs
  if cs1.getLast? = some '=' then cs1.dropLast else cs1

/-- Regroup 6-bit values into 8-bit bytes. -/
def sextetsToBytes : List Nat → List Nat
  | a :: b :: c :: d :: rest =>
    (a * 4 + b / 16) :: ((b % 16) * 16 + c / 4) :: ((c % 4) * 64 + d) ::
      sextetsToBytes rest
  | [a, b] => [a * 4 + b / 16]
  | [a, b, c] => [a * 4 + b / 16, (b % 16) * 16 + c / 4]
  | _ => []

/-- Modelled from the spec: the browser `atob` base64 decoder; returns
`none` exactly when the input is not valid base64, in which case the
caller falls back to the raw value. -/
def atob (s : String) : Option String :=
  let core := stripPadChars s.data
  if core.length % 4 = 1 then none
  else
    match b64Vals core with
    | none => none
    | some vals => some (String.mk ((sextetsToBytes vals).map Char.ofNat))

/-- A resource snapshot as the comparator sees it: the metadata name and
the optional `data` map (`data` is absent on resources with no data
field, exactly as in the Kubernetes API objects the code manipulates). -/
structure KResource where
  name : String
  data : Option (List (String × String))
deriving DecidableEq, Repr

/-- The `ResourceComparison` record built by the backend comparator
(`compareResources` in the backend entry point). -/
structure ResourceComparison where
  name : String
  rtype : String
  ns : String
  status : String
  mainExists : Bool
  replicaExists : Bool
  diff : Option String
  mainResource : Option KResource
  replicaResource : Option KResource
deriving DecidableEq, Repr

/-- Diff operation of the line diff underlying the patch generator. -/
inductive DiffOp where
  | del (s : String)
  | ins (s : String)
  | keep (s : String)
deriving DecidableEq, Repr

/-- Modelled from the spec: the line diff computed by the external
PatchTextGenerator (the npm diff library, an external collaborator not in
the repository): a deterministic line-based diff.  Lines equal at the
current alignment become context; otherwise old lines are consumed as
deletions and remaining new lines as insertions. -/
def diffLines : List String → List String → List DiffOp
  | [], ys => ys.map .ins
  | x :: xs, ys =>
    match ys with
    | [] => .del x :: diffLines xs []
    | y :: ys' =>
      if x = y then .keep x :: diffLines xs ys'
      else .del x :: diffLines xs (y :: ys')

/-- The old-side lines described by a diff-operation list. -/
def oldOf : List DiffOp → List String
  | [] => []
  | .del s :: rest => s :: oldOf rest
  | .keep s :: rest => s :: oldOf rest
  | .ins _ :: rest => oldOf rest

/-- The new-side lines described by a diff-operation list. -/
def newOf : List DiffOp → List String
  | [] => []
  | .ins s :: rest => s :: newOf rest
  | .keep s :: rest => s :: newOf rest
  | .del _ :: rest => newOf rest

/-- Body line of the unified patch for one diff operation. -/
def patchBodyLine : DiffOp → String
  | .del s => "-" ++ s
  | .ins s => "+" ++ s
  | .keep s => " " ++ s

/-- Modelled from the spec: the unified patch text produced by
`createPatch(label, oldText, newText, oldLabel, newLabel)` of the external
PatchTextGenerator — an index/header line, `---`/`+++` source labels, an
`@@ -a,b +c,d @@` hunk header, and body lines prefixed `-`, `+` or a
space. -/
def sepLine : String :=
  String.mk (List.replicate 67 '=')

def patchLines (name old new oldHeader newHeader : String) : List String :=
  let oldL := splitNl old
  let newL := splitNl new
  ["Index: " ++ name,
   sepLine,
   "--- " ++ name ++ "\t" ++ oldHeader,
   "+++ " ++ name ++ "\t" ++ newHeader,
   "@@ -1," ++ natDec oldL.length ++ " +1," ++ natDec newL.length ++ " @@"] ++
  (diffLines oldL newL).map patchBodyLine

/-- Modelled from the spec: `createPatch` of the PatchTextGenerator. -/
def createPatch (name old new oldHeader newHeader : String) : String :=
  joinNl (patchLines name old new oldHeader newHeader)

/-- The per-name comparison body of the backend `compareResources`
(status determination and patch creation). -/
def compareOne (mainResource replicaResource : Option KResource)
    (resourceName resourceType ns : String) : ResourceComparison :=
  let statusDiff : String × Option String :=
    match mainResource, replicaResource with
    | none, some _ => ("replica-only", none)
    | some _, none => ("main-only", none)
    | some m, some r =>
      let mainDataStr := jsonStringify (m.data.getD [])
      let replicaDataStr := jsonStringify (r.data.getD [])
      if mainDataStr ≠ replicaDataStr then
        ("different",
         some (createPatch resourceName mainDataStr replicaDataStr
           "Main Cluster" "Replica Cluster"))
      else ("identical", none)
    | none, none => ("identical", none)
  { name := resourceName
    rtype := resourceType
    ns := ns
    status := statusDiff.1
    mainExists := mainResource.isSome
    replicaExists := replicaResource.isSome
    diff := statusDiff.2
    mainResource := mainResource
    replicaResource := replicaResource }

/-- The name-keyed maps the backend builds with `Map.prototype.set`. -/
def resourceMapOf (rs : List KResource) : List (String × KResource) :=
  rs.foldl (fun m r => setEntry m r.name r) []

/-- The backend `compareResources`: build the two name maps, walk the
set-union of the names in insertion order, and compare each pair. -/
def compareResources (mainResources replicaResources : List KResource)
    (resourceType ns : String) : List ResourceComparison :=
  let mainResourceMap := resourceMapOf mainResources
  let replicaResourceMap := resourceMapOf replicaResources
  let allResourceNames :=
    dedupStr (mainResourceMap.map Prod.fst ++ replicaResourceMap.map Prod.fst)
  allResourceNames.map (fun resourceName =>
    compareOne (alookup mainResourceMap resourceName)
      (alookup replicaResourceMap resourceName) resourceName resourceType ns)

/-- The frontend `decodeBase64Data`: decode every value of the map,
falling back to the raw value when `atob` fails; the result object is
rebuilt entry by entry. -/
def decodeBase64Data (data : List (String × String)) : List (String × String) :=
  data.foldl (fun decoded kv => setEntry decoded kv.1 ((atob kv.2).getD kv.2)) []

/-- The frontend `createConfigMapKeyDiffs`: one key-scoped patch for each
key, in the union of both key sets, whose two values (missing read as
the empty string) differ. -/
def createConfigMapKeyDiffs (comparison : ResourceComparison) :
    List (String × String) :=
  match comparison.mainResource, comparison.replicaResource with
  | none, none => []
  | _, _ =>
    let mainData := (comparison.mainResource.bind KResource.data).getD []
    let replicaData := (comparison.replicaResource.bind KResource.data).getD []
    let allKeys := dedupStr (mainData.map Prod.fst ++ replicaData.map Prod.fst)
    allKeys.filterMap (fun key =>
      let mainValue := (alookup mainData key).getD ""
      let replicaValue := (alookup replicaData key).getD ""
      if mainValue ≠ replicaValue then
        some (key, createPatch key mainValue replicaValue
          "Main Cluster" "Replica Cluster")
      else none)

/-- Type of a line of the selectable diff model. -/
inductive LineType where
  | addition
  | deletion
  | context
deriving DecidableEq, Repr

/-- Side of a selected line. -/
inductive Side where
  | left
  | right
deriving DecidableEq, Repr

/-- One entry of the `lineMapping` built by `renderSelectableDiff`,
keyed `L-<n>` or `R-<n>`; the key is kept in structured form as the side
character and the per-side 1-based line number. -/
structure ParsedLine where
  sideChar : Char
  num : Nat
  content : String
  ltype : LineType
  originalLine : String
deriving DecidableEq, Repr

/-- The mapping key of a parsed line, `L-<n>` or `R-<n>`. -/
def ParsedLine.mapKey (pl : ParsedLine) : String :=
  (if pl.sideChar = 'L' then "L-" else "R-") ++ natDec pl.num

/-- The line filter of `renderSelectableDiff`: header and hunk-marker
lines and blank lines are discarded. -/
def keepLine (line : String) : Bool :=
  !(jsStartsWith line "@@") && !(jsStartsWith line "---") &&
    !(jsStartsWith line "+++") && !(jsStartsWith line "Index:") &&
    !(jsTrim line == "")

/-- The content lines of a patch text after the filter. -/
def contentLinesOf (diffText : String) : List String :=
  (splitNl diffText).filter keepLine

/-- The line walk of `renderSelectableDiff`: a `-` line is a deletion on
the left side only, a `+` line an addition on the right side only, a
space line a context line entered on both sides; each side keeps its own
1-based counter; any other line is ignored. -/
def parseGo : List String → Nat → Nat → List ParsedLine
  | [], _, _ => []
  | line :: rest, oldLineNum, newLineNum =>
    if jsStartsWith line "-" then
      ⟨'L', oldLineNum, strDrop1 line, .deletion, line⟩ ::
        parseGo rest (oldLineNum + 1) newLineNum
    else if jsStartsWith line "+" then
      ⟨'R', newLineNum, strDrop1 line, .addition, line⟩ ::
        parseGo rest oldLineNum (newLineNum + 1)
    else if jsStartsWith line " " then
      ⟨'L', oldLineNum, strDrop1 line, .context, line⟩ ::
        ⟨'R', newLineNum, strDrop1 line, .context, line⟩ ::
          parseGo rest (oldLineNum + 1) (newLineNum + 1)
    else parseGo rest oldLineNum newLineNum

/-- The selectable diff model of a patch text: the `lineMapping` entries
of `renderSelectableDiff`, in creation order. -/
def parseDiff (diffText : String) : List ParsedLine :=
  parseGo (contentLinesOf diffText) 1 1

/-- Lookup in the line mapping (`lineMapping.get(lineId)`); the mapping
keys produced by one parse are distinct, so first-match lookup agrees
with the JavaScript `Map`. -/
def lineMappingGet (parsed : List ParsedLine) (lineId : String) :
    Option ParsedLine :=
  parsed.find? (fun pl => pl.mapKey == lineId)

/-- Contents of the left-side lines of the model, in order (the lines
whose contents `renderSelectableDiff` accumulates into `oldText`). -/
def leftContents (parsed : List ParsedLine) : List String :=
  (parsed.filter (fun pl => pl.sideChar == 'L')).map ParsedLine.content

/-- Contents of the right-side lines of the model, in order (the lines
whose contents `renderSelectableDiff` accumulates into `newText`). -/
def rightContents (parsed : List ParsedLine) : List String :=
  (parsed.filter (fun pl => pl.sideChar == 'R')).map ParsedLine.content

/-- The `SelectedLine` record of the frontend component. -/
structure SelectedLine where
  id : String
  resourceName : String
  resourceType : String
  ns : String
  key : Option String
  lineType : LineType
  lineContent : String
  lineNumber : Nat
  side : Side
deriving DecidableEq, Repr

/-- The `${key || 'main'}` fragment of the selected-line id: an absent or
empty key reads as `main`. -/
def keyPart : Option String → String
  | none => "main"
  | some k => if k = "" then "main" else k

/-- The id built by `handleLineClick`:
`${resourceName}-${key || 'main'}-${lineId}`. -/
def selectedLineId (resourceName : String) (key : Option String)
    (lineId : String) : String :=
  resourceName ++ "-" ++ keyPart key ++ "-" ++ lineId

/-- The frontend `isLineSelected`. -/
def isLineSelected (selectedLines : List SelectedLine) (lineId : String) : Bool :=
  selectedLines.any (fun line => line.id == lineId)

/-- The frontend `handleLineSelection`: append on select, filter out by
id on deselect. -/
def handleLineSelection (selectedLines : List SelectedLine)
    (line : SelectedLine) (isSelected : Bool) : List SelectedLine :=
  if isSelected then selectedLines ++ [line]
  else selectedLines.filter (fun l => !(l.id == line.id))

/-- The frontend `handleLineClick` of `renderSelectableDiff`: ignore
unknown ids and context lines, otherwise toggle the full-id membership of
the clicked line. -/
def handleLineClick (parsed : List ParsedLine)
    (resourceName resourceType ns : String) (key : Option String)
    (selectedLines : List SelectedLine) (lineId : String) :
    List SelectedLine :=
  match lineMappingGet parsed lineId with
  | none => selectedLines
  | some lineData =>
    if lineData.ltype = .context then selectedLines
    else
      let side := if jsStartsWith lineId "L-" then Side.left else Side.right
      let lineNumber := decParse (lineId.data.drop 2)
      let selectedLine : SelectedLine :=
        { id := selectedLineId resourceName key lineId
          resourceName := resourceName
          resourceType := resourceType
          ns := ns
          key := key
          lineType := lineData.ltype
          lineContent := lineData.content
          lineNumber := lineNumber
          side := side }
      handleLineSelection selectedLines selectedLine
        (!(isLineSelected selectedLines selectedLine.id))

/-- Merge direction. -/
inductive Direction where
  | mainToReplica
  | replicaToMain
deriving DecidableEq, Repr

/-- The grouping key of `mergeSelectedChanges`:
`${resourceName}-${resourceType}-${namespace}-${key || 'default'}`. -/
def groupKey (line : SelectedLine) : String :=
  line.resourceName ++ "-" ++ line.resourceType ++ "-" ++ line.ns ++ "-" ++
    (match line.key with
     | none => "default"
     | some k => if k = "" then "default" else k)

/-- Insert a line into the group list, preserving first-seen group
order (JavaScript object key insertion order). -/
def addToGroups (gs : List (String × List SelectedLine)) (k : String)
    (line : SelectedLine) : List (String × List SelectedLine) :=
  match gs with
  | [] => [(k, [line])]
  | (k', ls) :: rest =>
    if k' = k then (k', ls ++ [line]) :: rest
    else (k', ls) :: addToGroups rest k line

/-- The `changesByResource` grouping of `mergeSelectedChanges`. -/
def groupChanges (selectedLines : List SelectedLine) :
    List (String × List SelectedLine) :=
  selectedLines.foldl (fun gs line => addToGroups gs (groupKey line) line) []

/-- Leftmost match of the regular expression `"([^"]+)":` against a
character list: at a quote, try to read a nonempty run of non-quote
characters followed by a quote and a colon. -/
def tryKeyAt (cs : List Char) : Option (List Char) :=
  let run := cs.takeWhile (fun c => !(c = '"'))
  if run.isEmpty then none
  else
    match cs.drop run.length with
    | '"' :: ':' :: _ => some run
    | _ => none

/-- Scan for the leftmost match of `"([^"]+)":`. -/
def extractKeyChars : List Char → Option (List Char)
  | [] => none
  | c :: rest =>
    if c = '"' then
      match tryKeyAt rest with
      | some run => some run
      | none => extractKeyChars rest
    else extractKeyChars rest

/-- The key recovered from a selected line's content by the
`lineContent.match(/"([^"]+)":/)` heuristic of `mergeSelectedChanges`. -/
def extractKey (s : String) : Option String :=
  (extractKeyChars s.data).map String.mk

/-- Processing of one selection group by `mergeSelectedChanges`: the
ConfigMap branch overwrites the single keyed value with the whole
source-side value; the other branch recovers affected keys from the
selected line contents and overwrites them, falling back to a source-
over-destination object spread when no key is recovered. -/
def applyGroup (sourceResource : Option KResource)
    (mergedResource : KResource) (changes : List SelectedLine) : KResource :=
  match changes with
  | [] => mergedResource
  | firstChange :: _ =>
    if firstChange.resourceType = "ConfigMap" then
      match firstChange.key, mergedResource.data with
      | some k, some mdata =>
        if k ≠ "" then
          let sourceValue :=
            ((sourceResource.bind KResource.data).bind
              (fun sd => alookup sd k)).getD ""
          { mergedResource with data := some (setEntry mdata k sourceValue) }
        else mergedResource
      | _, _ => mergedResource
    else
      match sourceResource with
      | none => mergedResource
      | some src =>
        match src.data, mergedResource.data with
        | some sd, some mdata =>
          let affectedKeys :=
            dedupStr (changes.filterMap (fun c => extractKey c.lineContent))
          if affectedKeys.length > 0 then
            { mergedResource with
              data := some (affectedKeys.foldl (fun d k =>
                if (alookup sd k).isSome then
                  setEntry d k ((alookup sd k).getD "")
                else d) mdata) }
          else
            { mergedResource with data := some (mergeSpread mdata sd) }
        | _, _ => mergedResource

/-- The source snapshot selected by a merge direction. -/
def sourceOf (comp : ResourceComparison) (direction : Direction) :
    Option KResource :=
  if direction = Direction.mainToReplica then comp.mainResource
  else comp.replicaResource

/-- The destination snapshot selected by a merge direction. -/
def destOf (comp : ResourceComparison) (direction : Direction) :
    Option KResource :=
  if direction = Direction.mainToReplica then comp.replicaResource
  else comp.mainResource

/-- The frontend `mergeSelectedChanges`: abort on an empty selection or
no active comparison; pick source and destination by direction; with no
destination snapshot, return the source resource; otherwise apply every
selection group to a copy of the destination. -/
def mergeSelectedChanges (selectedLines : List SelectedLine)
    (selectedComparison : Option ResourceComparison) (direction : Direction) :
    Option KResource :=
  if selectedLines.length = 0 then none
  else
    match selectedComparison with
    | none => none
    | some comp =>
      let changesByResource := groupChanges selectedLines
      let sourceResource := sourceOf comp direction
      let destinationResource := destOf comp direction
      match destinationResource with
      | none => sourceResource
      | some dest =>
        some (changesByResource.foldl
          (fun mergedResource g => applyGroup sourceResource mergedResource g.2)
          dest)

/-- The line text carried by a diff operation. -/
def opContent : DiffOp → String
  | .del s => s
  | .ins s => s
  | .keep s => s

/-- A line that survives the selectable-diff pipeline intact: it is not
all whitespace, and prefixing it with the diff marker cannot make it look
like a `---` or `+++` patch header. -/
def GoodLine (c : String) : Prop :=
  jsTrim c ≠ "" ∧ jsStartsWith c "--" = false ∧ jsStartsWith c "++" = false

/-- The order-insensitive canonical serialization described by the
specification: serialize the dataMap with its keys in a fixed sorted
order, so that two dataMaps holding the same key-value pairs serialize
identically regardless of the order their keys were inserted in.  This
definition follows the wording of the spec, for comparison against the
serialization the code actually uses. -/
def charListLe (xs ys : List Char) : Bool :=
  match xs, ys with
  | [], _ => true
  | _, [] => false
  | a :: as, b :: bs =>
    if a.toNat < b.toNat then true
    else if b.toNat < a.toNat then false
    else charListLe as bs

/-- Key comparison for the spec-side canonicalization. -/
def strLe (a b : String) : Bool := charListLe a.data b.data

/-- Insertion into a key-sorted entry list. -/
def insertSortedEntry (kv : String × String) :
    List (String × String) → List (String × String)
  | [] => [kv]
  | kv0 :: rest =>
    if strLe kv.1 kv0.1 then kv :: kv0 :: rest
    else kv0 :: insertSortedEntry kv rest

/-- Sort a dataMap by key. -/
def sortEntries : List (String × String) → List (String × String)
  | [] => []
  | kv :: rest => insertSortedEntry kv (sortEntries rest)

/-- Canonicalization with a deterministic key ordering, as the
specification's invariant describes it. -/
def canonicalSorted (m : List (String × String)) : String :=
  jsonStringify (sortEntries m)

/-- ConfigMap scenario fixture: the main-side snapshot. -/
def cmMain : KResource := ⟨"app-config", some [("a", "1"), ("b", "2")]⟩

/-- ConfigMap scenario fixture: the replica-side snapshot. -/
def cmReplica : KResource := ⟨"app-config", some [("a", "1"), ("b", "3")]⟩

/-- ConfigMap scenario fixture: the comparison record. -/
def cmComparison : ResourceComparison :=
  compareOne (some cmMain) (some cmReplica) "app-config" "ConfigMap" "default"

/-- ConfigMap scenario fixture: the key-scoped patch for key `b`. -/
def cmKeyPatch : String :=
  ((createConfigMapKeyDiffs cmComparison).map Prod.snd).headD ""

/-- ConfigMap scenario fixture: the selection after clicking the addition
line `R-1` of the key-`b` diff. -/
def cmSelection : List SelectedLine :=
  handleLineClick (parseDiff cmKeyPatch) "app-config" "ConfigMap" "default"
    (some "b") [] "R-1"

/-- A one-line-to-one-line patch used by concrete selection examples. -/
def tinyPatch : String := createPatch "s" "a" "b" "Main Cluster" "Replica Cluster"

/-- Secret merge fixture: the source-side snapshot. -/
def scrSrc : KResource := ⟨"s", some [("y", "2")]⟩

/-- Secret merge fixture: the destination-side snapshot. -/
def scrDest : KResource := ⟨"s", some [("x", "1")]⟩

/-- Secret merge fixture: the active comparison. -/
def scrComp : ResourceComparison :=
  ⟨"s", "Secret", "default", "different", true, true, none,
    some scrSrc, some scrDest⟩

/-- Secret merge fixture: a selected line whose content carries no
recognizable key pattern. -/
def scrLine : SelectedLine :=
  ⟨"s-main-L-1", "s", "Secret", "default", none, LineType.deletion, "\x7b", 1,
    Side.left⟩

theorem splitNlAux_ne_nil (cs : List Char) : splitNlAux cs ≠ [] := by
  induction cs with
  | nil => simp [splitNlAux]
  | cons c cs ih =>
    simp only [splitNlAux]
    split
    · simp
    · rcases h : splitNlAux cs with _ | ⟨l, ls⟩
      · simp
      · simp

theorem joinNlAux_splitNlAux (cs : List Char) :
    joinNlAux (splitNlAux cs) = cs := by
  induction cs with
  | nil => rfl
  | cons c cs ih =>
    simp only [splitNlAux]
    split
    · rename_i hc
      rcases h : splitNlAux cs with _ | ⟨l, ls⟩
      · exact absurd h (splitNlAux_ne_nil cs)
      · rw [h] at ih
        subst hc
        simp [joinNlAux, ih]
    · rcases h : splitNlAux cs with _ | ⟨l, ls⟩
      · exact absurd h (splitNlAux_ne_nil cs)
      · rw [h] at ih
        rcases ls with _ | ⟨l', ls'⟩
        · simpa [joinNlAux] using congrArg (c :: ·) ih
        · simpa [joinNlAux] using congrArg (c :: ·) ih

theorem splitNlAux_no_nl (cs : List Char) (h : '\n' ∉ cs) :
    splitNlAux cs = [cs] := by
  induction cs with
  | nil => rfl
  | cons c cs ih =>
    simp only [List.mem_cons, not_or] at h
    simp only [splitNlAux]
    rw [if_neg (fun hc => h.1 hc.symm), ih h.2]

theorem splitNlAux_append_nl (l rest : List Char) (h : '\n' ∉ l) :
    splitNlAux (l ++ '\n' :: rest) = l :: splitNlAux rest := by
  induction l with
  | nil => simp [splitNlAux]
  | cons c l ih =>
    simp only [List.mem_cons, not_or] at h
    simp only [List.cons_append, splitNlAux]
    rw [if_neg (fun hc => h.1 hc.symm)]
    simp only [List.append_eq] at ih ⊢
    rw [ih h.2]

theorem splitNlAux_joinNlAux (ls : List (List Char)) (hne : ls ≠ [])
    (h : ∀ l ∈ ls, '\n' ∉ l) : splitNlAux (joinNlAux ls) = ls := by
  induction ls with
  | nil => exact absurd rfl hne
  | cons l ls ih =>
    rcases ls with _ | ⟨l', ls'⟩
    · exact splitNlAux_no_nl l (h l (by simp))
    · have h1 : '\n' ∉ l := h l (by simp)
      have h2 : ∀ x ∈ l' :: ls', '\n' ∉ x := fun x hx => h x (by simp [hx])
      simp only [joinNlAux]
      rw [splitNlAux_append_nl l (joinNlAux (l' :: ls')) h1,
        ih (by simp) h2]

theorem mem_splitNlAux_no_nl (cs : List Char) (l : List Char)
    (hl : l ∈ splitNlAux cs) : '\n' ∉ l := by
  induction cs generalizing l with
  | nil =>
    simp only [splitNlAux, List.mem_singleton] at hl
    simp [hl]
  | cons c cs ih =>
    simp only [splitNlAux] at hl
    by_cases hc : c = '\n'
    · rw [if_pos hc] at hl
      rcases List.mem_cons.mp hl with hl1 | hl1
      · simp [hl1]
      · exact ih l hl1
    · rw [if_neg hc] at hl
      rcases h : splitNlAux cs with _ | ⟨l', ls'⟩
      · exact absurd h (splitNlAux_ne_nil cs)
      · rw [h] at hl
        rcases List.mem_cons.mp hl with hl1 | hl1
        · subst hl1
          have hmem : l' ∈ splitNlAux cs := by rw [h]; simp
          have hno := ih l' hmem
          simp only [List.mem_cons, not_or]
          exact ⟨fun he => hc he.symm, hno⟩
        · exact ih l (by rw [h]; simp [hl1])

theorem joinNl_splitNl (s : String) : joinNl (splitNl s) = s := by
  have h : (splitNl s).map String.data = splitNlAux s.data := by
    simp only [splitNl, List.map_map]
    have : ∀ x ∈ splitNlAux s.data, (String.data ∘ String.mk) x = id x := by
      intro x _; rfl
    rw [List.map_congr_left this, List.map_id]
  simp only [joinNl, h, joinNlAux_splitNlAux]

theorem splitNl_joinNl (ls : List String) (hne : ls ≠ [])
    (h : ∀ l ∈ ls, '\n' ∉ l.data) : splitNl (joinNl ls) = ls := by
  have hmapne : ls.map String.data ≠ [] := by
    simpa using hne
  have hmem : ∀ l ∈ ls.map String.data, '\n' ∉ l := by
    intro l hl
    rcases List.mem_map.mp hl with ⟨s, hs, rfl⟩
    exact h s hs
  simp only [splitNl, joinNl, splitNlAux_joinNlAux (ls.map String.data) hmapne hmem,
    List.map_map]
  have : ∀ x ∈ ls, (String.mk ∘ String.data) x = id x := by
    intro x _; rfl
  rw [List.map_congr_left this, List.map_id]

theorem trimAux_ne_nil_of_mem (cs : List Char) (c : Char) (hc : c ∈ cs)
    (hw : jsWs c = false) : trimAux cs ≠ [] := by
  intro hcon
  unfold trimAux at hcon
  have h1 : (cs.dropWhile jsWs).reverse.dropWhile jsWs = [] := by
    simpa using congrArg List.reverse hcon
  have h2 : ∀ a ∈ (cs.dropWhile jsWs).reverse, jsWs a = true :=
    List.dropWhile_eq_nil_iff.mp h1
  have h3 : ∀ a ∈ cs.dropWhile jsWs, jsWs a = true := by
    intro a ha; exact h2 a (List.mem_reverse.mpr ha)
  by_cases hcd : c ∈ cs.dropWhile jsWs
  · rw [h3 c hcd] at hw; exact Bool.noConfusion hw
  · have hsplit : ∀ a ∈ cs, jsWs a = true ∨ a ∈ cs.dropWhile jsWs := by
      intro a ha
      have ha2 : a ∈ cs.takeWhile jsWs ++ cs.dropWhile jsWs := by
        rw [List.takeWhile_append_dropWhile]; exact ha
      rcases List.mem_append.mp ha2 with h | h
      · exact Or.inl (List.mem_takeWhile_imp h)
      · exact Or.inr h
    rcases hsplit c hc with h | h
    · rw [h] at hw; exact Bool.noConfusion hw
    · exact hcd h

theorem trimAux_cons_ws (c : Char) (cs : List Char) (h : jsWs c = true) :
    trimAux (c :: cs) = trimAux cs := by
  simp [trimAux, List.dropWhile, h]

theorem decVal_decDigit (d : Nat) (h : d < 10) : decVal (decDigit d) = d := by
  interval_cases d <;> rfl

theorem decChars_no_nl (fuel n : Nat) : '\n' ∉ decChars fuel n := by
  induction fuel generalizing n with
  | zero => simp [decChars]
  | succ fuel ih =>
    simp only [decChars]
    split
    · rename_i h
      interval_cases n <;> simp [decDigit]
    · rename_i h
      simp only [List.mem_append, List.mem_singleton, not_or]
      refine ⟨ih (n / 10), ?_⟩
      have h10 : n % 10 < 10 := Nat.mod_lt n (by omega)
      intro hcon
      set d := n % 10 with hd
      clear_value d
      interval_cases d <;> simp [decDigit] at hcon

theorem decParse_append_digit (cs : List Char) (c : Char) :
    decParse (cs ++ [c]) = decParse cs * 10 + decVal c := by
  simp [decParse, List.foldl_append]

theorem decParse_decChars (fuel n : Nat) (h : n + 1 ≤ fuel) :
    decParse (decChars fuel n) = n := by
  induction fuel generalizing n with
  | zero => omega
  | succ fuel ih =>
    simp only [decChars]
    split
    · rename_i hlt
      simp [decParse, decVal_decDigit n hlt]
    · rename_i hge
      push_neg at hge
      rw [decParse_append_digit, decVal_decDigit (n % 10) (Nat.mod_lt n (by omega))]
      have hdiv : n / 10 + 1 ≤ fuel := by
        have h1 : n / 10 < n := Nat.div_lt_self (by omega) (by omega)
        omega
      rw [ih (n / 10) hdiv]
      omega

theorem natDec_injective (n m : Nat) (h : natDec n = natDec m) : n = m := by
  have hd : decChars (n + 1) n = decChars (m + 1) m := congrArg String.data h
  have h1 := decParse_decChars (n + 1) n (by omega)
  have h2 := decParse_decChars (m + 1) m (by omega)
  rw [← h1, ← h2, hd]

theorem alookup_setEntry_self {β : Type} (l : List (String × β)) (k : String) (v : β) :
    alookup (setEntry l k v) k = some v := by
  induction l with
  | nil => simp [setEntry, alookup]
  | cons kv rest ih =>
    obtain ⟨k', v'⟩ := kv
    simp only [setEntry]
    split
    · simp [alookup]
    · rename_i hne
      simp only [alookup]
      rw [if_neg hne]
      exact ih

theorem alookup_setEntry_ne {β : Type} (l : List (String × β)) (k k0 : String) (v : β)
    (h : k0 ≠ k) : alookup (setEntry l k v) k0 = alookup l k0 := by
  induction l with
  | nil =>
    simp only [setEntry, alookup]
    rw [if_neg (fun he => h he.symm)]
  | cons kv rest ih =>
    obtain ⟨k', v'⟩ := kv
    simp only [setEntry]
    split
    · rename_i he
      subst he
      simp only [alookup]
      rw [if_neg (fun he2 => h he2.symm), if_neg (fun he2 => h he2.symm)]
    · simp only [alookup]
      split
      · rfl
      · exact ih

theorem alookup_append {β : Type} (xs ys : List (String × β)) (k : String) :
    alookup (xs ++ ys) k = (alookup xs k).or (alookup ys k) := by
  induction xs with
  | nil => simp [alookup]
  | cons kv rest ih =>
    obtain ⟨k', v'⟩ := kv
    simp only [List.cons_append, alookup]
    split
    · rfl
    · exact ih

theorem alookup_map_values (a : List (String × String))
    (f : String → String → String) (k : String) :
    alookup (a.map (fun kv => (kv.1, f kv.1 kv.2))) k =
      (alookup a k).map (f k) := by
  induction a with
  | nil => simp [alookup]
  | cons kv rest ih =>
    obtain ⟨k', v'⟩ := kv
    simp only [List.map_cons, alookup]
    split
    · rename_i he
      subst he
      rfl
    · exact ih

theorem alookup_filter_absent (a b : List (String × String)) (k : String) :
    alookup (b.filter (fun kv => (alookup a kv.1).isNone)) k =
      if (alookup a k).isSome then none else alookup b k := by
  induction b with
  | nil => simp [alookup]
  | cons kv rest ih =>
    obtain ⟨k', v'⟩ := kv
    by_cases hp : (alookup a k').isNone
    · rw [List.filter_cons_of_pos (by simpa using hp)]
      by_cases hk : k' = k
      · subst hk
        have hn : alookup a k' = none := Option.isNone_iff_eq_none.mp hp
        simp [alookup, hn]
      · simp only [alookup, if_neg hk]
        exact ih
    · rw [List.filter_cons_of_neg (by simpa using hp)]
      by_cases hk : k' = k
      · subst hk
        have hs : (alookup a k').isSome := by
          cases h : alookup a k' <;> simp_all
        rw [ih, if_pos hs]
        simp only [alookup, if_pos rfl]
        rw [if_pos hs]
      · simp only [alookup, if_neg hk]
        exact ih

theorem alookup_mergeSpread (a b : List (String × String)) (k : String) :
    alookup (mergeSpread a b) k = (alookup b k).or (alookup a k) := by
  unfold mergeSpread
  rw [alookup_append, alookup_map_values a (fun k0 v => (alookup b k0).getD v) k,
    alookup_filter_absent a b k]
  cases ha : alookup a k <;> cases hb : alookup b k <;> simp

theorem isPrefixOf_cons_cons (a b : Char) (as bs : List Char) :
    (a :: as).isPrefixOf (b :: bs) = (a == b && as.isPrefixOf bs) := rfl

theorem isPrefixOf_nil_left (bs : List Char) :
    ([] : List Char).isPrefixOf bs = true := by
  cases bs <;> rfl

theorem stringMk_eq_empty_iff (l : List Char) : String.mk l = "" ↔ l = [] := by
  constructor
  · intro h
    exact congrArg String.data h
  · intro h
    rw [h]

theorem jsTrim_ne_empty_of_mem (s : String) (c : Char) (hc : c ∈ s.data)
    (hw : jsWs c = false) : jsTrim s ≠ "" := by
  intro hcon
  exact trimAux_ne_nil_of_mem s.data c hc hw
    ((stringMk_eq_empty_iff (trimAux s.data)).mp hcon)

theorem oldOf_diffLines (xs ys : List String) : oldOf (diffLines xs ys) = xs := by
  induction xs generalizing ys with
  | nil =>
    induction ys with
    | nil => rfl
    | cons y ys ih => simpa [diffLines, oldOf] using ih
  | cons x xs ih =>
    cases ys with
    | nil => simpa [diffLines, oldOf] using ih []
    | cons y ys' =>
      by_cases h : x = y
      · simpa [diffLines, h, oldOf] using ih ys'
      · simpa [diffLines, h, oldOf] using ih (y :: ys')

theorem newOf_diffLines (xs ys : List String) : newOf (diffLines xs ys) = ys := by
  induction xs generalizing ys with
  | nil =>
    induction ys with
    | nil => rfl
    | cons y ys ih => simpa [diffLines, newOf] using ih
  | cons x xs ih =>
    cases ys with
    | nil => simpa [diffLines, newOf] using ih []
    | cons y ys' =>
      by_cases h : x = y
      · simp only [diffLines, if_pos h, newOf]
        rw [ih ys', h]
      · simpa [diffLines, h, newOf] using ih (y :: ys')

theorem opContent_mem_diffLines (xs ys : List String) (op : DiffOp)
    (hop : op ∈ diffLines xs ys) :
    opContent op ∈ xs ∨ opContent op ∈ ys := by
  induction xs generalizing ys with
  | nil =>
    induction ys with
    | nil => simp [diffLines] at hop
    | cons y ys ih =>
      simp only [diffLines, List.map_cons, List.mem_cons] at hop
      rcases hop with h | h
      · subst h
        simp [opContent]
      · rcases ih h with h2 | h2
        · exact absurd h2 (by simp)
        · exact Or.inr (by simp [h2])
  | cons x xs ih =>
    cases ys with
    | nil =>
      simp only [diffLines, List.mem_cons] at hop
      rcases hop with h | h
      · subst h
        simp [opContent]
      · rcases ih [] h with h2 | h2
        · exact Or.inl (by simp [h2])
        · exact absurd h2 (by simp)
    | cons y ys' =>
      by_cases he : x = y
      · rw [diffLines, if_pos he] at hop
        rcases List.mem_cons.mp hop with h | h
        · subst h
          simp [opContent]
        · rcases ih ys' h with h2 | h2
          · exact Or.inl (by simp [h2])
          · exact Or.inr (by simp [h2])
      · rw [diffLines, if_neg he] at hop
        rcases List.mem_cons.mp hop with h | h
        · subst h
          simp [opContent]
        · rcases ih (y :: ys') h with h2 | h2
          · exact Or.inl (by simp [h2])
          · exact Or.inr h2

theorem decDigit_ne_nl (d : Nat) : decDigit d ≠ '\n' := by
  unfold decDigit
  split <;> decide

theorem natDec_no_nl (n : Nat) : '\n' ∉ (natDec n).data := by
  exact decChars_no_nl (n + 1) n

theorem hexDigit_ne_nl (d : Nat) : hexDigit d ≠ '\n' := by
  unfold hexDigit
  split
  · exact decDigit_ne_nl d
  · split
    · decide
    · split
      · decide
      · split
        · decide
        · split
          · decide
          · split <;> decide

theorem jsonEscapeChar_no_nl (c : Char) : '\n' ∉ jsonEscapeChar c := by
  unfold jsonEscapeChar
  split
  · decide
  · split
    · decide
    · rename_i h1 h2
      split
      · decide
      · split
        · decide
        · split
          · decide
          · split
            · decide
            · split
              · decide
              · rename_i h3 h4 h5 h6 h7
                split
                · simp only [List.mem_cons, List.mem_singleton, not_or]
                  refine ⟨by decide, by decide, by decide, by decide, ?_, ?_, by simp⟩
                  · exact fun he => hexDigit_ne_nl _ he.symm
                  · exact fun he => hexDigit_ne_nl _ he.symm
                · simp only [List.mem_singleton]
                  exact fun he => h3 he.symm

theorem jsonEscapeL_no_nl (s : String) : '\n' ∉ jsonEscapeL s := by
  unfold jsonEscapeL
  intro h
  rcases List.mem_flatten.mp h with ⟨l, hl, hcl⟩
  rcases List.mem_map.mp hl with ⟨c, _, rfl⟩
  exact jsonEscapeChar_no_nl c hcl

theorem jsonEntryLine_no_nl (isLast : Bool) (kv : String × String) :
    '\n' ∉ (jsonEntryLine isLast kv).data := by
  unfold jsonEntryLine
  intro h
  simp only [List.mem_cons, List.mem_append, List.mem_singleton] at h
  rcases h with h | h | h | h | h | h | h | h | h | h | h
  · exact absurd h (by decide)
  · exact absurd h (by decide)
  · exact absurd h (by decide)
  · exact jsonEscapeL_no_nl kv.1 h
  · exact absurd h (by decide)
  · exact absurd h (by decide)
  · exact absurd h (by decide)
  · exact absurd h (by decide)
  · exact jsonEscapeL_no_nl kv.2 h
  · exact absurd h (by decide)
  · cases isLast <;> simp_all

theorem jsonEntryLine_good (isLast : Bool) (kv : String × String) :
    GoodLine (jsonEntryLine isLast kv) := by
  refine ⟨?_, ?_, ?_⟩
  · apply jsTrim_ne_empty_of_mem _ '"'
    · unfold jsonEntryLine
      simp
    · decide
  · unfold jsonEntryLine jsStartsWith
    simp [isPrefixOf_cons_cons]
  · unfold jsonEntryLine jsStartsWith
    simp [isPrefixOf_cons_cons]

theorem mem_jsonEntryLines (m : List (String × String)) (l : String)
    (hl : l ∈ jsonEntryLines m) :
    ∃ isLast kv, l = jsonEntryLine isLast kv := by
  induction m with
  | nil => simp [jsonEntryLines] at hl
  | cons kv rest ih =>
    cases rest with
    | nil =>
      simp only [jsonEntryLines, List.mem_singleton] at hl
      exact ⟨true, kv, hl⟩
    | cons kv2 rest2 =>
      simp only [jsonEntryLines, List.mem_cons] at hl
      rcases hl with h | h
      · exact ⟨false, kv, h⟩
      · exact ih (by simpa [jsonEntryLines] using h)

theorem jsonStringifyLines_no_nl (m : List (String × String)) (l : String)
    (hl : l ∈ jsonStringifyLines m) : '\n' ∉ l.data := by
  unfold jsonStringifyLines at hl
  match m with
  | [] =>
    simp only [List.mem_singleton] at hl
    subst hl
    decide
  | kv :: rest =>
    simp only [List.mem_cons, List.mem_append, List.mem_singleton,
      List.not_mem_nil, or_false] at hl
    rcases hl with h | h | h
    · subst h; decide
    · rcases mem_jsonEntryLines _ l h with ⟨isLast, kv2, rfl⟩
      exact jsonEntryLine_no_nl isLast kv2
    · subst h; decide

theorem jsonStringifyLines_good (m : List (String × String)) (l : String)
    (hl : l ∈ jsonStringifyLines m) : GoodLine l := by
  unfold jsonStringifyLines at hl
  match m with
  | [] =>
    simp only [List.mem_singleton] at hl
    subst hl
    refine ⟨by decide, by decide, by decide⟩
  | kv :: rest =>
    simp only [List.mem_cons, List.mem_append, List.mem_singleton,
      List.not_mem_nil, or_false] at hl
    rcases hl with h | h | h
    · subst h; exact ⟨by decide, by decide, by decide⟩
    · rcases mem_jsonEntryLines _ l h with ⟨isLast, kv2, rfl⟩
      exact jsonEntryLine_good isLast kv2
    · subst h; exact ⟨by decide, by decide, by decide⟩

theorem jsonStringifyLines_ne_nil (m : List (String × String)) :
    jsonStringifyLines m ≠ [] := by
  unfold jsonStringifyLines
  match m with
  | [] => simp
  | kv :: rest => simp

theorem splitNl_jsonStringify (m : List (String × String)) :
    splitNl (jsonStringify m) = jsonStringifyLines m := by
  unfold jsonStringify
  exact splitNl_joinNl _ (jsonStringifyLines_ne_nil m)
    (jsonStringifyLines_no_nl m)

theorem data_dash (c : String) : ("-" ++ c).data = '-' :: c.data := by
  rw [String.data_append]; rfl

theorem data_plus (c : String) : ("+" ++ c).data = '+' :: c.data := by
  rw [String.data_append]; rfl

theorem data_space (c : String) : (" " ++ c).data = ' ' :: c.data := by
  rw [String.data_append]; rfl

theorem keepLine_index (s : String) : keepLine ("Index: " ++ s) = false := by
  have hd : ("Index: " ++ s).data = 'I' :: 'n' :: 'd' :: 'e' :: 'x' :: ':' :: ' ' :: s.data := by
    rw [String.data_append]; rfl
  have h : jsStartsWith ("Index: " ++ s) "Index:" = true := by
    simp [jsStartsWith, hd, isPrefixOf_cons_cons, isPrefixOf_nil_left]
  simp [keepLine, h]

theorem keepLine_oldLabel (s : String) : keepLine ("--- " ++ s) = false := by
  have hd : ("--- " ++ s).data = '-' :: '-' :: '-' :: ' ' :: s.data := by
    rw [String.data_append]; rfl
  have h : jsStartsWith ("--- " ++ s) "---" = true := by
    simp [jsStartsWith, hd, isPrefixOf_cons_cons, isPrefixOf_nil_left]
  simp [keepLine, h]

theorem keepLine_newLabel (s : String) : keepLine ("+++ " ++ s) = false := by
  have hd : ("+++ " ++ s).data = '+' :: '+' :: '+' :: ' ' :: s.data := by
    rw [String.data_append]; rfl
  have h : jsStartsWith ("+++ " ++ s) "+++" = true := by
    simp [jsStartsWith, hd, isPrefixOf_cons_cons, isPrefixOf_nil_left]
  simp [keepLine, h]

theorem keepLine_hunk (s : String) : keepLine ("@@ -1," ++ s) = false := by
  have hd : ("@@ -1," ++ s).data = '@' :: '@' :: ' ' :: '-' :: '1' :: ',' :: s.data := by
    rw [String.data_append]; rfl
  have h : jsStartsWith ("@@ -1," ++ s) "@@" = true := by
    simp [jsStartsWith, hd, isPrefixOf_cons_cons, isPrefixOf_nil_left]
  simp [keepLine, h]

theorem keepLine_del (c : String) (hc : GoodLine c) :
    keepLine ("-" ++ c) = true := by
  obtain ⟨h1, h2, h3⟩ := hc
  have hd := data_dash c
  have hhh : jsStartsWith ("-" ++ c) "@@" = false := by
    simp [jsStartsWith, hd, isPrefixOf_cons_cons]
  have hddd : jsStartsWith ("-" ++ c) "---" = false := by
    simp only [jsStartsWith, hd]
    have : ("---".data).isPrefixOf ('-' :: c.data) = ("--".data).isPrefixOf c.data := by
      simp [isPrefixOf_cons_cons]
    rw [this]
    exact h2
  have hppp : jsStartsWith ("-" ++ c) "+++" = false := by
    simp [jsStartsWith, hd, isPrefixOf_cons_cons]
  have hidx : jsStartsWith ("-" ++ c) "Index:" = false := by
    simp [jsStartsWith, hd, isPrefixOf_cons_cons]
  have htrim : (jsTrim ("-" ++ c) == "") = false := by
    have : jsTrim ("-" ++ c) ≠ "" := by
      apply jsTrim_ne_empty_of_mem _ '-'
      · rw [hd]; simp
      · decide
    simpa using this
  simp [keepLine, hhh, hddd, hppp, hidx, htrim]

theorem keepLine_ins (c : String) (hc : GoodLine c) :
    keepLine ("+" ++ c) = true := by
  obtain ⟨h1, h2, h3⟩ := hc
  have hd := data_plus c
  have hhh : jsStartsWith ("+" ++ c) "@@" = false := by
    simp [jsStartsWith, hd, isPrefixOf_cons_cons]
  have hddd : jsStartsWith ("+" ++ c) "---" = false := by
    simp [jsStartsWith, hd, isPrefixOf_cons_cons]
  have hppp : jsStartsWith ("+" ++ c) "+++" = false := by
    simp only [jsStartsWith, hd]
    have : ("+++".data).isPrefixOf ('+' :: c.data) = ("++".data).isPrefixOf c.data := by
      simp [isPrefixOf_cons_cons]
    rw [this]
    exact h3
  have hidx : jsStartsWith ("+" ++ c) "Index:" = false := by
    simp [jsStartsWith, hd, isPrefixOf_cons_cons]
  have htrim : (jsTrim ("+" ++ c) == "") = false := by
    have : jsTrim ("+" ++ c) ≠ "" := by
      apply jsTrim_ne_empty_of_mem _ '+'
      · rw [hd]; simp
      · decide
    simpa using this
  simp [keepLine, hhh, hddd, hppp, hidx, htrim]

theorem keepLine_ctx (c : String) (hc : GoodLine c) :
    keepLine (" " ++ c) = true := by
  obtain ⟨h1, h2, h3⟩ := hc
  have hd := data_space c
  have hhh : jsStartsWith (" " ++ c) "@@" = false := by
    simp [jsStartsWith, hd, isPrefixOf_cons_cons]
  have hddd : jsStartsWith (" " ++ c) "---" = false := by
    simp [jsStartsWith, hd, isPrefixOf_cons_cons]
  have hppp : jsStartsWith (" " ++ c) "+++" = false := by
    simp [jsStartsWith, hd, isPrefixOf_cons_cons]
  have hidx : jsStartsWith (" " ++ c) "Index:" = false := by
    simp [jsStartsWith, hd, isPrefixOf_cons_cons]
  have htrim : (jsTrim (" " ++ c) == "") = false := by
    have : jsTrim (" " ++ c) ≠ "" := by
      simp only [jsTrim, hd, trimAux_cons_ws ' ' c.data (by decide)]
      exact h1
    simpa using this
  simp [keepLine, hhh, hddd, hppp, hidx, htrim]

theorem keepLine_patchBodyLine (op : DiffOp) (h : GoodLine (opContent op)) :
    keepLine (patchBodyLine op) = true := by
  cases op with
  | del s => exact keepLine_del s h
  | ins s => exact keepLine_ins s h
  | keep s => exact keepLine_ctx s h

theorem sw_del_dash (c : String) : jsStartsWith ("-" ++ c) "-" = true := by
  simp [jsStartsWith, data_dash, isPrefixOf_cons_cons, isPrefixOf_nil_left]

theorem sw_ins_dash (c : String) : jsStartsWith ("+" ++ c) "-" = false := by
  simp [jsStartsWith, data_plus, isPrefixOf_cons_cons]

theorem sw_ins_plus (c : String) : jsStartsWith ("+" ++ c) "+" = true := by
  simp [jsStartsWith, data_plus, isPrefixOf_cons_cons, isPrefixOf_nil_left]

theorem sw_ctx_dash (c : String) : jsStartsWith (" " ++ c) "-" = false := by
  simp [jsStartsWith, data_space, isPrefixOf_cons_cons]

theorem sw_ctx_plus (c : String) : jsStartsWith (" " ++ c) "+" = false := by
  simp [jsStartsWith, data_space, isPrefixOf_cons_cons]

theorem sw_ctx_space (c : String) : jsStartsWith (" " ++ c) " " = true := by
  simp [jsStartsWith, data_space, isPrefixOf_cons_cons, isPrefixOf_nil_left]

theorem strDrop1_dash (c : String) : strDrop1 ("-" ++ c) = c := by
  simp only [strDrop1, data_dash, List.drop_succ_cons, List.drop_zero]

theorem strDrop1_plus (c : String) : strDrop1 ("+" ++ c) = c := by
  simp only [strDrop1, data_plus, List.drop_succ_cons, List.drop_zero]

theorem strDrop1_space (c : String) : strDrop1 (" " ++ c) = c := by
  simp only [strDrop1, data_space, List.drop_succ_cons, List.drop_zero]

theorem parseGo_sep (rest : List String) (o n : Nat) :
    parseGo (sepLine :: rest) o n = parseGo rest o n := by
  have h1 : jsStartsWith sepLine "-" = false := by decide
  have h2 : jsStartsWith sepLine "+" = false := by decide
  have h3 : jsStartsWith sepLine " " = false := by decide
  simp [parseGo, h1, h2, h3]

theorem parseGo_walk (ops : List DiffOp) (o n : Nat) :
    leftContents (parseGo (ops.map patchBodyLine) o n) = oldOf ops ∧
    rightContents (parseGo (ops.map patchBodyLine) o n) = newOf ops := by
  induction ops generalizing o n with
  | nil => simp [parseGo, leftContents, rightContents, oldOf, newOf]
  | cons op rest ih =>
    cases op with
    | del c =>
      simp only [List.map_cons, patchBodyLine, parseGo, sw_del_dash,
        if_true, strDrop1_dash]
      constructor
      · simp only [leftContents, List.filter_cons]
        simpa [leftContents, oldOf] using (ih (o + 1) n).1
      · simp only [rightContents, List.filter_cons]
        simpa [rightContents, newOf] using (ih (o + 1) n).2
    | ins c =>
      simp only [List.map_cons, patchBodyLine, parseGo, sw_ins_dash,
        sw_ins_plus, if_false, if_true, strDrop1_plus]
      constructor
      · simp only [leftContents, List.filter_cons]
        simpa [leftContents, oldOf] using (ih o (n + 1)).1
      · simp only [rightContents, List.filter_cons]
        simpa [rightContents, newOf] using (ih o (n + 1)).2
    | keep c =>
      simp only [List.map_cons, patchBodyLine, parseGo, sw_ctx_dash,
        sw_ctx_plus, sw_ctx_space, if_false, if_true, strDrop1_space]
      constructor
      · simp only [leftContents, List.filter_cons]
        simpa [leftContents, oldOf] using (ih (o + 1) (n + 1)).1
      · simp only [rightContents, List.filter_cons]
        simpa [rightContents, newOf] using (ih (o + 1) (n + 1)).2

theorem patchLines_no_nl (name old new oldHeader newHeader : String)
    (hname : '\n' ∉ name.data) (hoh : '\n' ∉ oldHeader.data)
    (hnh : '\n' ∉ newHeader.data) :
    ∀ l ∈ patchLines name old new oldHeader newHeader, '\n' ∉ l.data := by
  intro l hl
  unfold patchLines at hl
  simp only [List.mem_append, List.mem_cons, List.mem_singleton,
    List.not_mem_nil, or_false] at hl
  rcases hl with (h | h | h | h | h) | h
  · subst h
    simp only [String.data_append, List.mem_append]
    rintro (h2 | h2)
    · exact absurd h2 (by decide)
    · exact hname h2
  · subst h; decide
  · subst h
    simp only [String.data_append, List.mem_append]
    rintro (((h2 | h2) | h2) | h2)
    · exact absurd h2 (by decide)
    · exact hname h2
    · exact absurd h2 (by decide)
    · exact hoh h2
  · subst h
    simp only [String.data_append, List.mem_append]
    rintro (((h2 | h2) | h2) | h2)
    · exact absurd h2 (by decide)
    · exact hname h2
    · exact absurd h2 (by decide)
    · exact hnh h2
  · subst h
    simp only [String.data_append, List.mem_append]
    rintro ((((h2 | h2) | h2) | h2) | h2)
    · exact absurd h2 (by decide)
    · exact natDec_no_nl _ h2
    · exact absurd h2 (by decide)
    · exact natDec_no_nl _ h2
    · exact absurd h2 (by decide)
  · rcases List.mem_map.mp h with ⟨op, hop, rfl⟩
    have hmem := opContent_mem_diffLines (splitNl old) (splitNl new) op hop
    have hco : '\n' ∉ (opContent op).data := by
      rcases hmem with h2 | h2
      · rcases List.mem_map.mp h2 with ⟨cl, hcl, heq⟩
        rw [← heq]
        exact mem_splitNlAux_no_nl old.data cl hcl
      · rcases List.mem_map.mp h2 with ⟨cl, hcl, heq⟩
        rw [← heq]
        exact mem_splitNlAux_no_nl new.data cl hcl
    cases op with
    | del s =>
      simp only [patchBodyLine, data_dash]
      intro h2
      rcases List.mem_cons.mp h2 with h3 | h3
      · exact absurd h3 (by decide)
      · exact hco h3
    | ins s =>
      simp only [patchBodyLine, data_plus]
      intro h2
      rcases List.mem_cons.mp h2 with h3 | h3
      · exact absurd h3 (by decide)
      · exact hco h3
    | keep s =>
      simp only [patchBodyLine, data_space]
      intro h2
      rcases List.mem_cons.mp h2 with h3 | h3
      · exact absurd h3 (by decide)
      · exact hco h3

theorem contentLinesOf_createPatch (name old new oldHeader newHeader : String)
    (hname : '\n' ∉ name.data) (hoh : '\n' ∉ oldHeader.data)
    (hnh : '\n' ∉ newHeader.data)
    (hold : ∀ l ∈ splitNl old, GoodLine l)
    (hnew : ∀ l ∈ splitNl new, GoodLine l) :
    contentLinesOf (createPatch name old new oldHeader newHeader) =
      sepLine :: (diffLines (splitNl old) (splitNl new)).map patchBodyLine := by
  unfold contentLinesOf createPatch
  rw [splitNl_joinNl _ (by simp [patchLines]) (patchLines_no_nl _ _ _ _ _ hname hoh hnh)]
  unfold patchLines
  have hgood : ∀ op ∈ diffLines (splitNl old) (splitNl new),
      GoodLine (opContent op) := by
    intro op hop
    rcases opContent_mem_diffLines (splitNl old) (splitNl new) op hop with h | h
    · exact hold _ h
    · exact hnew _ h
  have hassoc3 : ∀ a b c : String, a ++ b ++ c = a ++ (b ++ c) := by
    intro a b c
    cases a
    cases b
    cases c
    exact congrArg String.mk (List.append_assoc _ _ _)
  simp only [List.cons_append, List.nil_append, List.filter_cons]
  rw [show ("--- " ++ name ++ "\t" ++ oldHeader) = "--- " ++ (name ++ "\t" ++ oldHeader) by
        simp [hassoc3]]
  rw [show ("+++ " ++ name ++ "\t" ++ newHeader) = "+++ " ++ (name ++ "\t" ++ newHeader) by
        simp [hassoc3]]
  rw [show ("@@ -1," ++ natDec (splitNl old).length ++ " +1," ++
        natDec (splitNl new).length ++ " @@") =
      "@@ -1," ++ (natDec (splitNl old).length ++ " +1," ++
        natDec (splitNl new).length ++ " @@") by simp [hassoc3]]
  simp only [keepLine_index, keepLine_oldLabel, keepLine_newLabel, keepLine_hunk,
    Bool.false_eq_true, if_false]
  rw [if_pos (by decide : keepLine sepLine = true)]
  congr 1
  rw [List.filter_eq_self]
  intro l hl
  rcases List.mem_map.mp hl with ⟨op, hop, rfl⟩
  exact keepLine_patchBodyLine op (hgood op hop)

theorem parseGo_bounds (lines : List String) (o n : Nat) :
    ∀ pl ∈ parseGo lines o n,
      (pl.sideChar = 'L' ∧ o ≤ pl.num) ∨ (pl.sideChar = 'R' ∧ n ≤ pl.num) := by
  induction lines generalizing o n with
  | nil => simp [parseGo]
  | cons line rest ih =>
    intro pl hpl
    simp only [parseGo] at hpl
    split at hpl
    · rcases List.mem_cons.mp hpl with h | h
      · subst h
        exact Or.inl ⟨rfl, Nat.le_refl o⟩
      · rcases ih (o + 1) n pl h with ⟨hs, hn⟩ | ⟨hs, hn⟩
        · exact Or.inl ⟨hs, by omega⟩
        · exact Or.inr ⟨hs, hn⟩
    · split at hpl
      · rcases List.mem_cons.mp hpl with h | h
        · subst h
          exact Or.inr ⟨rfl, Nat.le_refl n⟩
        · rcases ih o (n + 1) pl h with ⟨hs, hn⟩ | ⟨hs, hn⟩
          · exact Or.inl ⟨hs, hn⟩
          · exact Or.inr ⟨hs, by omega⟩
      · split at hpl
        · rcases List.mem_cons.mp hpl with h | h
          · subst h
            exact Or.inl ⟨rfl, Nat.le_refl o⟩
          · rcases List.mem_cons.mp h with h2 | h2
            · subst h2
              exact Or.inr ⟨rfl, Nat.le_refl n⟩
            · rcases ih (o + 1) (n + 1) pl h2 with ⟨hs, hn⟩ | ⟨hs, hn⟩
              · exact Or.inl ⟨hs, by omega⟩
              · exact Or.inr ⟨hs, by omega⟩
        · exact ih o n pl hpl

theorem parseGo_pairwise (lines : List String) (o n : Nat) :
    (parseGo lines o n).Pairwise
      (fun a b => ¬(a.sideChar = b.sideChar ∧ a.num = b.num)) := by
  induction lines generalizing o n with
  | nil => simp [parseGo]
  | cons line rest ih =>
    simp only [parseGo]
    split
    · refine List.Pairwise.cons ?_ (ih (o + 1) n)
      rintro pl hpl ⟨hs, hn⟩
      have hs0 : 'L' = pl.sideChar := hs
      have hn0 : o = pl.num := hn
      rcases parseGo_bounds rest (o + 1) n pl hpl with ⟨hs2, hn2⟩ | ⟨hs2, hn2⟩
      · omega
      · rw [hs2] at hs0
        exact absurd hs0 (by decide)
    · split
      · refine List.Pairwise.cons ?_ (ih o (n + 1))
        rintro pl hpl ⟨hs, hn⟩
        have hs0 : 'R' = pl.sideChar := hs
        have hn0 : n = pl.num := hn
        rcases parseGo_bounds rest o (n + 1) pl hpl with ⟨hs2, hn2⟩ | ⟨hs2, hn2⟩
        · rw [hs2] at hs0
          exact absurd hs0 (by decide)
        · omega
      · split
        · refine List.Pairwise.cons ?_ (List.Pairwise.cons ?_ (ih (o + 1) (n + 1)))
          · intro pl hpl hcon
            rcases List.mem_cons.mp hpl with h | h
            · subst h
              have hs0 : ('L' : Char) = 'R' := hcon.1
              exact absurd hs0 (by decide)
            · have hs0 : 'L' = pl.sideChar := hcon.1
              have hn0 : o = pl.num := hcon.2
              rcases parseGo_bounds rest (o + 1) (n + 1) pl h with ⟨hs2, hn2⟩ | ⟨hs2, hn2⟩
              · omega
              · rw [hs2] at hs0
                exact absurd hs0 (by decide)
          · rintro pl hpl ⟨hs, hn⟩
            have hs0 : 'R' = pl.sideChar := hs
            have hn0 : n = pl.num := hn
            rcases parseGo_bounds rest (o + 1) (n + 1) pl hpl with ⟨hs2, hn2⟩ | ⟨hs2, hn2⟩
            · rw [hs2] at hs0
              exact absurd hs0 (by decide)
            · omega
        · exact ih o n

theorem string_append_cancel_left (p a b : String) (h : p ++ a = p ++ b) :
    a = b := by
  have hd : p.data ++ a.data = p.data ++ b.data := by
    have h1 := congrArg String.data h
    rwa [String.data_append, String.data_append] at h1
  have h2 : a.data = b.data := List.append_cancel_left hd
  cases a
  cases b
  exact congrArg String.mk h2

theorem mapKey_L (pl : ParsedLine) (h : pl.sideChar = 'L') :
    pl.mapKey = "L-" ++ natDec pl.num := by
  unfold ParsedLine.mapKey
  rw [if_pos h]

theorem mapKey_R (pl : ParsedLine) (h : pl.sideChar = 'R') :
    pl.mapKey = "R-" ++ natDec pl.num := by
  unfold ParsedLine.mapKey
  rw [if_neg (show ¬pl.sideChar = 'L' by rw [h]; decide)]

theorem mapKey_ne (pl pl' : ParsedLine)
    (hside : pl.sideChar = 'L' ∨ pl.sideChar = 'R')
    (hside' : pl'.sideChar = 'L' ∨ pl'.sideChar = 'R')
    (h : ¬(pl.sideChar = pl'.sideChar ∧ pl.num = pl'.num)) :
    pl.mapKey ≠ pl'.mapKey := by
  intro hcon
  rcases hside with hs | hs <;> rcases hside' with hs' | hs'
  · rw [mapKey_L pl hs, mapKey_L pl' hs'] at hcon
    exact h ⟨hs.trans hs'.symm, natDec_injective _ _
      (string_append_cancel_left "L-" _ _ hcon)⟩
  · rw [mapKey_L pl hs, mapKey_R pl' hs'] at hcon
    have hd := congrArg String.data hcon
    rw [String.data_append, String.data_append] at hd
    have h2 : 'L' :: '-' :: (natDec pl.num).data =
        'R' :: '-' :: (natDec pl'.num).data := hd
    simp at h2
  · rw [mapKey_R pl hs, mapKey_L pl' hs'] at hcon
    have hd := congrArg String.data hcon
    rw [String.data_append, String.data_append] at hd
    have h2 : 'R' :: '-' :: (natDec pl.num).data =
        'L' :: '-' :: (natDec pl'.num).data := hd
    simp at h2
  · rw [mapKey_R pl hs, mapKey_R pl' hs'] at hcon
    exact h ⟨hs.trans hs'.symm, natDec_injective _ _
      (string_append_cancel_left "R-" _ _ hcon)⟩

theorem addToGroups_same (gk : String) (ls : List SelectedLine)
    (rest : List (String × List SelectedLine)) (l : SelectedLine)
    (h : groupKey l = gk) :
    addToGroups ((gk, ls) :: rest) (groupKey l) l = (gk, ls ++ [l]) :: rest := by
  simp [addToGroups, h]

theorem groupChanges_aux (rest : List SelectedLine) (gk : String)
    (ls : List SelectedLine) (h : ∀ l ∈ rest, groupKey l = gk) :
    rest.foldl (fun gs line => addToGroups gs (groupKey line) line) [(gk, ls)] =
      [(gk, ls ++ rest)] := by
  induction rest generalizing ls with
  | nil => simp
  | cons l rest ih =>
    simp only [List.foldl_cons]
    rw [addToGroups_same gk ls [] l (h l (by simp))]
    rw [ih (ls ++ [l]) (fun x hx => h x (by simp [hx]))]
    simp

theorem groupChanges_single (l0 : SelectedLine) (rest : List SelectedLine)
    (h : ∀ l ∈ rest, groupKey l = groupKey l0) :
    groupChanges (l0 :: rest) = [(groupKey l0, l0 :: rest)] := by
  unfold groupChanges
  simp only [List.foldl_cons]
  have h0 : addToGroups [] (groupKey l0) l0 = [(groupKey l0, [l0])] := rfl
  rw [h0, groupChanges_aux rest (groupKey l0) [l0] h]
  simp

theorem mergeSelectedChanges_single (l0 : SelectedLine)
    (rest : List SelectedLine) (comp : ResourceComparison)
    (direction : Direction) (dest : KResource)
    (hg : ∀ l ∈ rest, groupKey l = groupKey l0)
    (hdest : destOf comp direction = some dest) :
    mergeSelectedChanges (l0 :: rest) (some comp) direction =
      some (applyGroup (sourceOf comp direction) dest (l0 :: rest)) := by
  unfold mergeSelectedChanges
  rw [if_neg (by simp)]
  simp only [groupChanges_single l0 rest hg, hdest, List.foldl_cons,
    List.foldl_nil]

theorem dedupGo_mem (l seen : List String) (x : String) :
    x ∈ dedupGo l seen ↔ x ∈ l ∧ x ∉ seen := by
  induction l generalizing seen with
  | nil => simp [dedupGo]
  | cons y l ih =>
    simp only [dedupGo]
    by_cases hy : y ∈ seen
    · rw [if_pos hy, ih]
      constructor
      · rintro ⟨h1, h2⟩
        exact ⟨by simp [h1], h2⟩
      · rintro ⟨h1, h2⟩
        rcases List.mem_cons.mp h1 with h3 | h3
        · subst h3
          exact absurd hy h2
        · exact ⟨h3, h2⟩
    · rw [if_neg hy]
      constructor
      · intro h1
        rcases List.mem_cons.mp h1 with h3 | h3
        · subst h3
          exact ⟨by simp, hy⟩
        · have := (ih (y :: seen)).mp h3
          refine ⟨by simp [this.1], ?_⟩
          intro hc
          exact this.2 (by simp [hc])
      · rintro ⟨h1, h2⟩
        rcases List.mem_cons.mp h1 with h3 | h3
        · subst h3
          simp
        · by_cases hxy : x = y
          · subst hxy
            simp
          · refine List.mem_cons.mpr (Or.inr ?_)
            exact (ih (y :: seen)).mpr ⟨h3, by simp [hxy, h2]⟩

theorem dedupGo_nodup (l seen : List String) : (dedupGo l seen).Nodup := by
  induction l generalizing seen with
  | nil => simp [dedupGo]
  | cons y l ih =>
    simp only [dedupGo]
    by_cases hy : y ∈ seen
    · rw [if_pos hy]
      exact ih seen
    · rw [if_neg hy]
      refine List.Pairwise.cons ?_ (ih (y :: seen))
      intro x hx
      have := (dedupGo_mem l (y :: seen) x).mp hx
      intro he
      exact this.2 (by simp [he.symm])

theorem dedupStr_nodup (l : List String) : (dedupStr l).Nodup :=
  dedupGo_nodup l []

theorem dedupStr_mem (l : List String) (x : String) :
    x ∈ dedupStr l ↔ x ∈ l := by
  unfold dedupStr
  rw [dedupGo_mem]
  simp

theorem dedupStr_eq_nil_iff (l : List String) : dedupStr l = [] ↔ l = [] := by
  constructor
  · intro h
    rcases l with _ | ⟨x, l⟩
    · rfl
    · have : x ∈ dedupStr (x :: l) := (dedupStr_mem _ x).mpr (by simp)
      rw [h] at this
      simp at this
  · intro h
    subst h
    rfl

theorem alookup_overwriteFold (sd : List (String × String))
    (keys : List String) (mdata : List (String × String)) (k : String)
    (hnd : keys.Nodup) :
    alookup (keys.foldl (fun d key =>
        if (alookup sd key).isSome then setEntry d key ((alookup sd key).getD "")
        else d) mdata) k =
      if k ∈ keys ∧ (alookup sd k).isSome = true then alookup sd k
      else alookup mdata k := by
  induction keys generalizing mdata with
  | nil => simp
  | cons k0 keys ih =>
    simp only [List.foldl_cons]
    have hnd2 := (List.nodup_cons.mp hnd).2
    have hk0 := (List.nodup_cons.mp hnd).1
    rw [ih _ hnd2]
    by_cases hmem : k ∈ keys ∧ (alookup sd k).isSome = true
    · rw [if_pos hmem, if_pos ⟨by simp [hmem.1], hmem.2⟩]
    · rw [if_neg hmem]
      by_cases hk : k = k0
      · subst hk
        by_cases hsd : (alookup sd k).isSome = true
        · rw [if_pos hsd, if_pos ⟨by simp, hsd⟩, alookup_setEntry_self]
          obtain ⟨v, hv⟩ := Option.isSome_iff_exists.mp hsd
          rw [hv]
          rfl
        · rw [if_neg hsd, if_neg (fun hc => hsd hc.2)]
      · have hckons : ¬(k ∈ k0 :: keys ∧ (alookup sd k).isSome = true) := by
          intro hc
          rcases List.mem_cons.mp hc.1 with h3 | h3
          · exact hk h3
          · exact hmem ⟨h3, hc.2⟩
        rw [if_neg hckons]
        by_cases hsd0 : (alookup sd k0).isSome = true
        · rw [if_pos hsd0, alookup_setEntry_ne _ _ _ _ hk]
        · rw [if_neg hsd0]

theorem setEntry_append_of_not_mem {β : Type} (l : List (String × β))
    (k : String) (v : β) (h : k ∉ l.map Prod.fst) :
    setEntry l k v = l ++ [(k, v)] := by
  induction l with
  | nil => rfl
  | cons kv rest ih =>
    simp only [List.map_cons, List.mem_cons] at h
    push_neg at h
    simp only [setEntry]
    rw [if_neg (fun he => h.1 he.symm), ih h.2]
    rfl

theorem alookup_of_mem_nodup (m : List (String × String))
    (kv : String × String) (hnd : (m.map Prod.fst).Nodup) (hm : kv ∈ m) :
    alookup m kv.1 = some kv.2 := by
  induction m with
  | nil => simp at hm
  | cons kv0 rest ih =>
    simp only [List.map_cons, List.nodup_cons] at hnd
    rcases List.mem_cons.mp hm with h | h
    · subst h
      simp [alookup]
    · have hne : kv0.1 ≠ kv.1 := by
        intro he
        exact hnd.1 (he ▸ List.mem_map.mpr ⟨kv, h, rfl⟩)
      simp only [alookup]
      rw [if_neg hne]
      exact ih hnd.2 h

theorem decodeBase64Data_aux (m acc : List (String × String))
    (hnd : (m.map Prod.fst).Nodup)
    (hdisj : ∀ k ∈ acc.map Prod.fst, k ∉ m.map Prod.fst) :
    m.foldl (fun decoded kv => setEntry decoded kv.1 ((atob kv.2).getD kv.2)) acc =
      acc ++ m.map (fun kv => (kv.1, (atob kv.2).getD kv.2)) := by
  induction m generalizing acc with
  | nil => simp
  | cons kv rest ih =>
    simp only [List.foldl_cons]
    have hk : kv.1 ∉ acc.map Prod.fst := by
      intro hc
      exact hdisj kv.1 hc (by simp)
    rw [setEntry_append_of_not_mem acc kv.1 _ hk]
    simp only [List.map_cons, List.nodup_cons] at hnd
    rw [ih (acc ++ [(kv.1, (atob kv.2).getD kv.2)]) hnd.2 ?_]
    · simp
    · intro k hkm
      simp only [List.map_append, List.mem_append, List.map_cons] at hkm
      rcases hkm with h | h
      · intro hc
        exact hdisj k h (by simp [hc])
      · simp only [List.map_nil, List.mem_singleton] at h
        subst h
        exact hnd.1

theorem decodeBase64Data_eq (m : List (String × String))
    (hnd : (m.map Prod.fst).Nodup) :
    decodeBase64Data m = m.map (fun kv => (kv.1, (atob kv.2).getD kv.2)) := by
  unfold decodeBase64Data
  rw [decodeBase64Data_aux m [] hnd (by simp)]
  simp

theorem createPatch_roundTrip (name old new oldHeader newHeader : String)
    (hname : '\n' ∉ name.data) (hoh : '\n' ∉ oldHeader.data)
    (hnh : '\n' ∉ newHeader.data)
    (hold : ∀ l ∈ splitNl old, GoodLine l)
    (hnew : ∀ l ∈ splitNl new, GoodLine l) :
    joinNl (leftContents (parseDiff (createPatch name old new oldHeader newHeader))) = old ∧
    joinNl (rightContents (parseDiff (createPatch name old new oldHeader newHeader))) = new := by
  unfold parseDiff
  rw [contentLinesOf_createPatch name old new oldHeader newHeader hname hoh hnh hold hnew,
    parseGo_sep]
  have hwalk := parseGo_walk (diffLines (splitNl old) (splitNl new)) 1 1
  rw [hwalk.1, hwalk.2, oldOf_diffLines, newOf_diffLines, joinNl_splitNl,
    joinNl_splitNl]
  exact ⟨rfl, rfl⟩

theorem applyGroup_configMap (src : Option KResource) (merged : KResource)
    (l0 : SelectedLine) (rest : List SelectedLine) (k : String)
    (mdata : List (String × String))
    (ht : l0.resourceType = "ConfigMap") (hk : l0.key = some k)
    (hk0 : k ≠ "") (hd : merged.data = some mdata) :
    applyGroup src merged (l0 :: rest) =
      { merged with data := some (setEntry mdata k
          (((src.bind KResource.data).bind (fun sd => alookup sd k)).getD "")) } := by
  simp only [applyGroup]
  rw [if_pos ht, hk, hd]
  simp only [if_pos hk0]

theorem applyGroup_secret (src : KResource) (merged : KResource)
    (l0 : SelectedLine) (rest : List SelectedLine)
    (sd mdata : List (String × String))
    (ht : l0.resourceType ≠ "ConfigMap")
    (hsd : src.data = some sd) (hmd : merged.data = some mdata) :
    applyGroup (some src) merged (l0 :: rest) =
      (if (dedupStr ((l0 :: rest).filterMap
            (fun c => extractKey c.lineContent))).length > 0 then
        { merged with data := some ((dedupStr ((l0 :: rest).filterMap
            (fun c => extractKey c.lineContent))).foldl (fun d key =>
              if (alookup sd key).isSome then
                setEntry d key ((alookup sd key).getD "")
              else d) mdata) }
      else { merged with data := some (mergeSpread mdata sd) }) := by
  simp only [applyGroup]
  rw [if_neg ht]
  simp only [hsd, hmd]

/-- C1 counterexample: two snapshots holding the same key-value pairs in
different insertion orders serialize identically under the deterministic
key ordering the specification mandates, yet the comparator reports them
as different, because it serializes with `JSON.stringify` in insertion
order.  This refutes the claim that the status is `identical` exactly
when the canonical (order-insensitive) serializations agree. -/
theorem c1_counterexample :
    canonicalSorted [("a", "1"), ("b", "2")] =
      canonicalSorted [("b", "2"), ("a", "1")] ∧
    (compareOne (some ⟨"app-config", some [("a", "1"), ("b", "2")]⟩)
      (some ⟨"app-config", some [("b", "2"), ("a", "1")]⟩)
      "app-config" "ConfigMap" "default").status = "different" ∧
    (compareOne (some ⟨"app-config", some [("a", "1"), ("b", "2")]⟩)
      (some ⟨"app-config", some [("b", "2"), ("a", "1")]⟩)
      "app-config" "ConfigMap" "default").status ≠ "identical" := by
  refine ⟨by decide, by decide, by decide⟩

/-- C1 (amended): for a pair of snapshots that both exist, the status is
`identical` if and only if the two dataMaps have equal insertion-order
`JSON.stringify` serializations; the serialization the comparator uses is
order-sensitive, not the order-insensitive canonical form the claim
states. -/
theorem c1_amended (a b : KResource) (resourceName resourceType ns : String) :
    (compareOne (some a) (some b) resourceName resourceType ns).status =
        "identical" ↔
      jsonStringify (a.data.getD []) = jsonStringify (b.data.getD []) := by
  unfold compareOne
  by_cases h : jsonStringify (a.data.getD []) = jsonStringify (b.data.getD [])
  · simp only [if_neg (not_not_intro h)]
    simp [h]
  · simp only [if_pos h]
    constructor
    · intro hc
      exact absurd hc (by decide)
    · intro hc
      exact absurd hc h

/-- The diff field of one comparison record is populated exactly in the
`different` status branch. -/
theorem compareOne_diff_iff (mo ro : Option KResource)
    (resourceName resourceType ns : String) :
    ((compareOne mo ro resourceName resourceType ns).diff ≠ none ↔
      (compareOne mo ro resourceName resourceType ns).status = "different") := by
  unfold compareOne
  match mo, ro with
  | none, some r => simp
  | some m, none => simp
  | none, none => simp
  | some m, some r =>
    dsimp only
    by_cases h : jsonStringify (m.data.getD []) = jsonStringify (r.data.getD [])
    · rw [if_neg (not_not_intro h)]
      constructor
      · intro hc
        exact absurd rfl hc
      · intro hc
        exact absurd hc (by decide)
    · rw [if_pos h]
      constructor
      · intro _
        rfl
      · intro _
        simp

/-- C9: in every comparison record the comparator produces, the diff
field is non-null exactly when the status is `different`; the statuses
`identical`, `main-only` and `replica-only` all carry a null diff. -/
theorem c9_diff_iff_different (mainResources replicaResources : List KResource)
    (resourceType ns : String) (c : ResourceComparison)
    (hc : c ∈ compareResources mainResources replicaResources resourceType ns) :
    (c.diff ≠ none ↔ c.status = "different") := by
  unfold compareResources at hc
  rcases List.mem_map.mp hc with ⟨resourceName, _, rfl⟩
  exact compareOne_diff_iff _ _ _ _ _

/-- C9 witness: a main-only pair and a different pair, evaluated. -/
theorem c9_witness :
    ∃ c, c ∈ compareResources [⟨"creds", some [("user", "QWxpY2U=")]⟩] []
        "Secret" "default" ∧ (c.diff ≠ none ↔ c.status = "different") :=
  ⟨compareOne (some ⟨"creds", some [("user", "QWxpY2U=")]⟩) none
      "creds" "Secret" "default", by decide,
    c9_diff_iff_different [⟨"creds", some [("user", "QWxpY2U=")]⟩] []
      "Secret" "default" _ (by decide)⟩

/-- C2 counterexample: with a nonempty selection and the destination
snapshot absent (main-to-replica merge of a main-only resource), the
merge does not return the null failure value: it returns the source
snapshot itself. -/
theorem c2_counterexample :
    destOf ⟨"creds", "Secret", "default", "main-only", true, false, none,
        some ⟨"creds", some [("user", "QWxpY2U=")]⟩, none⟩
      Direction.mainToReplica = none ∧
    mergeSelectedChanges
      [⟨"creds-main-L-1", "creds", "Secret", "default", none,
        LineType.deletion, "  \"user\": \"QWxpY2U=\"", 1, Side.left⟩]
      (some ⟨"creds", "Secret", "default", "main-only", true, false, none,
        some ⟨"creds", some [("user", "QWxpY2U=")]⟩, none⟩)
      Direction.mainToReplica =
        some ⟨"creds", some [("user", "QWxpY2U=")]⟩ := by
  refine ⟨by decide, by decide⟩

/-- C2 (amended): with a nonempty selection and an active comparison, if
the destination snapshot of the chosen direction is absent the merge
returns the source snapshot unchanged (so a main-only resource merged
main-to-replica yields the main snapshot), rather than a null/failure
result. -/
theorem c2_amended (selectedLines : List SelectedLine)
    (comp : ResourceComparison) (direction : Direction)
    (hne : selectedLines ≠ [])
    (hdest : destOf comp direction = none) :
    mergeSelectedChanges selectedLines (some comp) direction =
      sourceOf comp direction := by
  simp only [mergeSelectedChanges, hdest]
  rw [if_neg (by simpa using hne)]

/-- C2 witness: the amended behaviour evaluated at the concrete
main-only pair. -/
theorem c2_amended_witness :
    mergeSelectedChanges
      [⟨"creds-main-L-1", "creds", "Secret", "default", none,
        LineType.deletion, "  \"user\": \"QWxpY2U=\"", 1, Side.left⟩]
      (some ⟨"creds", "Secret", "default", "main-only", true, false, none,
        some ⟨"creds", some [("user", "QWxpY2U=")]⟩, none⟩)
      Direction.mainToReplica =
      sourceOf ⟨"creds", "Secret", "default", "main-only", true, false, none,
        some ⟨"creds", some [("user", "QWxpY2U=")]⟩, none⟩
        Direction.mainToReplica :=
  c2_amended _ _ _ (by decide) (by decide)

/-- C4 counterexample: the id built by `handleLineClick` is
`resourceName-(key or main)-lineId` only; two diffs that differ solely in
their namespace (here `ns1` versus `ns2`) assign the same id to their
lines, so ids are not namespaced by the full
(resourceName, resourceType, namespace, subKey) tuple. -/
theorem c4_counterexample :
    (handleLineClick (parseDiff tinyPatch) "app" "Secret" "ns1" none []
        "L-1").map SelectedLine.id =
      (handleLineClick (parseDiff tinyPatch) "app" "Secret" "ns2" none []
        "L-1").map SelectedLine.id ∧
    (handleLineClick (parseDiff tinyPatch) "app" "Secret" "ns1" none []
        "L-1").map SelectedLine.ns ≠
      (handleLineClick (parseDiff tinyPatch) "app" "Secret" "ns2" none []
        "L-1").map SelectedLine.ns := by
  refine ⟨by decide, by decide⟩

/-- C4 (amended): a selectable line id has the form
`{side}-{number}` prefixed by resourceName and subKey only; within one
parsed diff (a fixed resourceName and subKey scope) all full ids are
pairwise distinct, but diffs differing only in resourceType or namespace
can collide. -/
theorem c4_amended (diffText resourceName : String) (key : Option String) :
    (parseDiff diffText).Pairwise (fun a b =>
      selectedLineId resourceName key a.mapKey ≠
        selectedLineId resourceName key b.mapKey) := by
  have hb := parseGo_bounds (contentLinesOf diffText) 1 1
  have hp := parseGo_pairwise (contentLinesOf diffText) 1 1
  unfold parseDiff
  refine List.Pairwise.imp_of_mem ?_ hp
  intro a b hma hmb hr hcon
  have hsa : a.sideChar = 'L' ∨ a.sideChar = 'R' := by
    rcases hb a hma with ⟨h1, _⟩ | ⟨h1, _⟩
    · exact Or.inl h1
    · exact Or.inr h1
  have hsb : b.sideChar = 'L' ∨ b.sideChar = 'R' := by
    rcases hb b hmb with ⟨h1, _⟩ | ⟨h1, _⟩
    · exact Or.inl h1
    · exact Or.inr h1
  exact mapKey_ne a b hsa hsb hr
    (string_append_cancel_left (resourceName ++ "-" ++ keyPart key ++ "-") _ _ hcon)

theorem isLineSelected_filter_out (sel : List SelectedLine) (lineId : String) :
    isLineSelected (sel.filter (fun l => !(l.id == lineId))) lineId = false := by
  induction sel with
  | nil => rfl
  | cons l rest ih =>
    cases hli : (l.id == lineId) with
    | true =>
      rw [List.filter_cons_of_neg (by simp [hli])]
      exact ih
    | false =>
      rw [List.filter_cons_of_pos (by simp [hli])]
      simp only [isLineSelected, List.any_cons, hli, Bool.false_or]
      exact ih

theorem isLineSelected_append (a b : List SelectedLine) (lineId : String) :
    isLineSelected (a ++ b) lineId =
      (isLineSelected a lineId || isLineSelected b lineId) := by
  simp [isLineSelected, List.any_append]

/-- C7: clicking a context line leaves the selection unchanged, while
clicking an addition or deletion line flips that full id's membership in
the selection. -/
theorem c7_toggle (parsed : List ParsedLine)
    (resourceName resourceType ns : String) (key : Option String)
    (sel : List SelectedLine) (lineId : String) (d : ParsedLine)
    (h : lineMappingGet parsed lineId = some d) :
    (d.ltype = LineType.context →
      handleLineClick parsed resourceName resourceType ns key sel lineId = sel) ∧
    (d.ltype ≠ LineType.context →
      isLineSelected
          (handleLineClick parsed resourceName resourceType ns key sel lineId)
          (selectedLineId resourceName key lineId) =
        !(isLineSelected sel (selectedLineId resourceName key lineId))) := by
  constructor
  · intro hctx
    unfold handleLineClick
    rw [h]
    dsimp only
    rw [if_pos hctx]
  · intro hctx
    unfold handleLineClick
    rw [h]
    dsimp only
    rw [if_neg hctx]
    cases hb : isLineSelected sel (selectedLineId resourceName key lineId) with
    | false =>
      simp only [hb, Bool.not_false, handleLineSelection, if_true,
        isLineSelected_append, Bool.false_or]
      simp [isLineSelected]
    | true =>
      simp only [hb, Bool.not_true, handleLineSelection, Bool.false_eq_true,
        if_false]
      exact isLineSelected_filter_out sel (selectedLineId resourceName key lineId)

/-- C7 witness: clicking the deletion line `L-1` of a concrete one-line
patch flips its membership in an empty selection. -/
theorem c7_witness :
    isLineSelected
        (handleLineClick (parseDiff tinyPatch) "s" "Secret" "default" none []
          "L-1")
        (selectedLineId "s" none "L-1") =
      !(isLineSelected [] (selectedLineId "s" none "L-1")) :=
  (c7_toggle (parseDiff tinyPatch) "s" "Secret" "default" none [] "L-1"
    ⟨'L', 1, "a", LineType.deletion, "-a"⟩ (by decide)).2 (by decide)

/-- C8: decoding a dataMap never aborts: the result has exactly the
input's keys, in order, and each value is its base64 decoding when the
decode succeeds and the raw value otherwise. -/
theorem c8_decode (m : List (String × String))
    (hnd : (m.map Prod.fst).Nodup) :
    (decodeBase64Data m).map Prod.fst = m.map Prod.fst ∧
    ∀ kv ∈ m, alookup (decodeBase64Data m) kv.1 =
      some ((atob kv.2).getD kv.2) := by
  rw [decodeBase64Data_eq m hnd]
  constructor
  · rw [List.map_map]
    exact List.map_congr_left (fun kv _ => rfl)
  · intro kv hm
    rw [alookup_map_values m (fun _ v => (atob v).getD v) kv.1,
      alookup_of_mem_nodup m kv hnd hm]
    rfl

/-- C8 witness: a well-formed base64 value decodes (`QWxpY2U=` to
`Alice`) while a malformed one (`!!!`) falls back to itself, without
affecting the other field. -/
theorem c8_witness :
    alookup (decodeBase64Data [("user", "QWxpY2U="), ("bad", "!!!")]) "user" =
        some "Alice" ∧
    alookup (decodeBase64Data [("user", "QWxpY2U="), ("bad", "!!!")]) "bad" =
        some "!!!" := by
  have h := c8_decode [("user", "QWxpY2U="), ("bad", "!!!")] (by decide)
  constructor
  · have h2 := h.2 ("user", "QWxpY2U=") (by decide)
    rw [h2]
    decide
  · have h2 := h.2 ("bad", "!!!") (by decide)
    rw [h2]
    decide

/-- C3 counterexample: a whole-blob merge whose selected line content
(`{`) yields no `"key":` match does not replace the destination dataMap
with the source's entire dataMap: the destination-only key `x` survives
(the code spreads the source over the destination instead of replacing
it). -/
theorem c3_counterexample :
    extractKey "\x7b" = none ∧
    mergeSelectedChanges [scrLine] (some scrComp) Direction.mainToReplica =
      some ⟨"s", some [("x", "1"), ("y", "2")]⟩ ∧
    ([("x", "1"), ("y", "2")] : List (String × String)) ≠ [("y", "2")] := by
  refine ⟨by decide, by decide, by decide⟩

/-- C3 (amended): in the whole-blob case the selected line contents are
scanned for `"key":` patterns; when at least one key is recovered, only
the recovered keys that exist in the source are overwritten with the
source values and every other destination entry is untouched; when no
key is recovered, the source dataMap is spread over the destination
(source values win per key, but destination-only keys survive — the
dataMap is not replaced wholesale). -/
theorem c3_amended (l0 : SelectedLine) (rest : List SelectedLine)
    (comp : ResourceComparison) (direction : Direction)
    (src dest : KResource) (sd mdata : List (String × String))
    (hg : ∀ l ∈ rest, groupKey l = groupKey l0)
    (ht : l0.resourceType ≠ "ConfigMap")
    (hsrc : sourceOf comp direction = some src) (hsd : src.data = some sd)
    (hdest : destOf comp direction = some dest) (hmd : dest.data = some mdata) :
    ∃ md, mergeSelectedChanges (l0 :: rest) (some comp) direction =
        some { dest with data := some md } ∧
      (dedupStr ((l0 :: rest).filterMap (fun c => extractKey c.lineContent)) ≠ [] →
        ∀ k, alookup md k =
          if k ∈ dedupStr ((l0 :: rest).filterMap (fun c => extractKey c.lineContent)) ∧
              (alookup sd k).isSome = true then alookup sd k
          else alookup mdata k) ∧
      (dedupStr ((l0 :: rest).filterMap (fun c => extractKey c.lineContent)) = [] →
        ∀ k, alookup md k = (alookup sd k).or (alookup mdata k)) := by
  rw [mergeSelectedChanges_single l0 rest comp direction dest hg hdest, hsrc,
    applyGroup_secret src dest l0 rest sd mdata ht hsd hmd]
  by_cases hak : dedupStr ((l0 :: rest).filterMap (fun c => extractKey c.lineContent)) = []
  · rw [if_neg (by simp [hak])]
    refine ⟨mergeSpread mdata sd, rfl, ?_, ?_⟩
    · intro hne
      exact absurd hak hne
    · intro _ k
      exact alookup_mergeSpread mdata sd k
  · rw [if_pos (by simpa [List.length_pos] using hak)]
    refine ⟨_, rfl, ?_, ?_⟩
    · intro _ k
      exact alookup_overwriteFold sd _ mdata k (dedupStr_nodup _)
    · intro hc
      exact absurd hc hak

/-- C3 witness: the fallback case evaluated on the concrete fixture — the
destination-only key survives with its value and the source key arrives
with its source value. -/
theorem c3_witness :
    ∃ md, mergeSelectedChanges [scrLine] (some scrComp) Direction.mainToReplica =
        some { scrDest with data := some md } ∧
      alookup md "x" = some "1" ∧ alookup md "y" = some "2" := by
  obtain ⟨md, hmd, _, hfb⟩ := c3_amended scrLine [] scrComp
    Direction.mainToReplica scrSrc scrDest [("y", "2")] [("x", "1")]
    (by simp) (by decide) (by decide) (by decide) (by decide) (by decide)
  refine ⟨md, hmd, ?_, ?_⟩
  · rw [hfb (by decide) "x"]
    decide
  · rw [hfb (by decide) "y"]
    decide

/-- C10: in the per-key merge case, when the selected key is absent from
the source dataMap (or its source value is empty, or the source snapshot
or its data are missing), the merged value at that key becomes the empty
string: the key stays present in the destination with value `""` rather
than being removed. -/
theorem c10_missing_source_key (l0 : SelectedLine) (rest : List SelectedLine)
    (comp : ResourceComparison) (direction : Direction) (dest : KResource)
    (mdata : List (String × String)) (k : String)
    (hg : ∀ l ∈ rest, groupKey l = groupKey l0)
    (ht : l0.resourceType = "ConfigMap") (hk : l0.key = some k) (hk0 : k ≠ "")
    (hdest : destOf comp direction = some dest) (hmd : dest.data = some mdata)
    (hsrc : ((sourceOf comp direction).bind KResource.data).bind
        (fun sd => alookup sd k) = none ∨
      ((sourceOf comp direction).bind KResource.data).bind
        (fun sd => alookup sd k) = some "") :
    mergeSelectedChanges (l0 :: rest) (some comp) direction =
      some { dest with data := some (setEntry mdata k "") } ∧
    alookup (setEntry mdata k "") k = some "" := by
  constructor
  · rw [mergeSelectedChanges_single l0 rest comp direction dest hg hdest,
      applyGroup_configMap (sourceOf comp direction) dest l0 rest k mdata ht hk
        hk0 hmd]
    rcases hsrc with h | h <;> rw [h] <;> rfl
  · exact alookup_setEntry_self mdata k ""

/-- C10 witness: merging a ConfigMap key the source does not carry leaves
the key present in the destination with the empty string value. -/
theorem c10_witness :
    mergeSelectedChanges
      [⟨"cfg-k-L-1", "cfg", "ConfigMap", "default", some "k",
        LineType.deletion, "x", 1, Side.left⟩]
      (some ⟨"cfg", "ConfigMap", "default", "different", true, true, none,
        some ⟨"cfg", some [("a", "1")]⟩, some ⟨"cfg", some [("k", "x")]⟩⟩)
      Direction.mainToReplica =
      some ⟨"cfg", some (setEntry [("k", "x")] "k" "")⟩ ∧
    alookup (setEntry [("k", "x")] "k" "") "k" = some "" :=
  c10_missing_source_key
    ⟨"cfg-k-L-1", "cfg", "ConfigMap", "default", some "k",
      LineType.deletion, "x", 1, Side.left⟩ []
    ⟨"cfg", "ConfigMap", "default", "different", true, true, none,
      some ⟨"cfg", some [("a", "1")]⟩, some ⟨"cfg", some [("k", "x")]⟩⟩
    Direction.mainToReplica ⟨"cfg", some [("k", "x")]⟩ [("k", "x")] "k"
    (by simp) (by decide) (by decide) (by decide) (by decide) (by decide)
    (Or.inl (by decide))

set_option maxRecDepth 200000 in
/-- C6: in the per-key merge case the merged dataMap's value at the
selected key is the entire source-side value for that key (a coarse
per-key overwrite); and the concrete scenario: for primary
{a:"1", b:"2"} against secondary {a:"1", b:"3"} the comparison status is
`different` with exactly one key diff (for `b`), and merging
primary-to-secondary with the addition line of `b` selected yields the
destination {a:"1", b:"2"}. -/
theorem c6_per_key_merge (l0 : SelectedLine) (rest : List SelectedLine)
    (comp : ResourceComparison) (direction : Direction) (dest : KResource)
    (mdata : List (String × String)) (k v : String)
    (hg : ∀ l ∈ rest, groupKey l = groupKey l0)
    (ht : l0.resourceType = "ConfigMap") (hk : l0.key = some k) (hk0 : k ≠ "")
    (hdest : destOf comp direction = some dest) (hmd : dest.data = some mdata)
    (hv : ((sourceOf comp direction).bind KResource.data).bind
        (fun sd => alookup sd k) = some v) :
    (mergeSelectedChanges (l0 :: rest) (some comp) direction =
        some { dest with data := some (setEntry mdata k v) } ∧
      alookup (setEntry mdata k v) k = some v) ∧
    (compareResources [cmMain] [cmReplica] "ConfigMap" "default" =
        [cmComparison] ∧
      cmComparison.status = "different" ∧
      (createConfigMapKeyDiffs cmComparison).map Prod.fst = ["b"] ∧
      cmSelection.map SelectedLine.lineType = [LineType.addition] ∧
      (mergeSelectedChanges cmSelection (some cmComparison)
          Direction.mainToReplica).bind KResource.data =
        some [("a", "1"), ("b", "2")]) := by
  constructor
  · constructor
    · rw [mergeSelectedChanges_single l0 rest comp direction dest hg hdest,
        applyGroup_configMap (sourceOf comp direction) dest l0 rest k mdata ht
          hk hk0 hmd, hv]
      rfl
    · exact alookup_setEntry_self mdata k v
  · refine ⟨by decide, by decide, by decide, by decide, by decide⟩

set_option maxRecDepth 200000 in
/-- C6 witness: the general per-key statement applied to the scenario
selection itself. -/
theorem c6_witness :
    mergeSelectedChanges
      [⟨"app-config-b-R-1", "app-config", "ConfigMap", "default", some "b",
        LineType.addition, "3", 1, Side.right⟩]
      (some cmComparison) Direction.mainToReplica =
      some { cmReplica with
        data := some (setEntry [("a", "1"), ("b", "3")] "b" "2") } ∧
    alookup (setEntry [("a", "1"), ("b", "3")] "b" "2") "b" = some "2" :=
  (c6_per_key_merge
    ⟨"app-config-b-R-1", "app-config", "ConfigMap", "default", some "b",
      LineType.addition, "3", 1, Side.right⟩ [] cmComparison
    Direction.mainToReplica cmReplica [("a", "1"), ("b", "3")] "b" "2"
    (by simp) (by decide) (by decide) (by decide) (by decide) (by decide)
    (by decide)).1

/-- C5: parsing the patch generated from two canonicalized dataMaps back
into the selectable diff model and concatenating the left-side line
contents reproduces the first canonical text; the right-side contents
reproduce the second. -/
theorem c5_roundtrip (a b : List (String × String)) (resourceName : String)
    (hname : '\n' ∉ resourceName.data) :
    joinNl (leftContents (parseDiff (createPatch resourceName
        (jsonStringify a) (jsonStringify b) "Main Cluster" "Replica Cluster"))) =
      jsonStringify a ∧
    joinNl (rightContents (parseDiff (createPatch resourceName
        (jsonStringify a) (jsonStringify b) "Main Cluster" "Replica Cluster"))) =
      jsonStringify b := by
  apply createPatch_roundTrip resourceName (jsonStringify a) (jsonStringify b)
    "Main Cluster" "Replica Cluster" hname (by decide) (by decide)
  · rw [splitNl_jsonStringify]
    exact jsonStringifyLines_good a
  · rw [splitNl_jsonStringify]
    exact jsonStringifyLines_good b

/-- C5 witness: the round trip evaluated at two concrete one-key maps. -/
theorem c5_witness :
    joinNl (leftContents (parseDiff (createPatch "creds"
        (jsonStringify [("user", "QWxpY2U=")]) (jsonStringify [("user", "Qm9i")])
        "Main Cluster" "Replica Cluster"))) =
      jsonStringify [("user", "QWxpY2U=")] ∧
    joinNl (rightContents (parseDiff (createPatch "creds"
        (jsonStringify [("user", "QWxpY2U=")]) (jsonStringify [("user", "Qm9i")])
        "Main Cluster" "Replica Cluster"))) =
      jsonStringify [("user", "Qm9i")] :=
  c5_roundtrip [("user", "QWxpY2U=")] [("user", "Qm9i")] "creds" (by decide)

end ConfigSync
